import Mathlib

/-!
Verification of the EAGLE variant evaluator (`src/eagle.c`) against its
natural-language specification.

The development is a shallow embedding of the C source: machine doubles are
modelled as exact real numbers `ℝ`, C strings as `String`/`List Char`, machine
integers as `Int`/`Nat`.  Each definition mirrors one function of `eagle.c`
and keeps its name.  Loops are rendered as structurally recursive helper
functions whose step count equals the loop's iteration count.
-/

open Real Filter

namespace Eagle

/-! ### LogMath (`log_add_exp`, `log_sum_exp`, eagle.c lines 90-104) -/

/-- `log_add_exp(a, b)` of eagle.c line 90: `max_exp = a > b ? a : b;
return log(exp(a - max_exp) + exp(b - max_exp)) + max_exp`. -/
noncomputable def log_add_exp (a b : ℝ) : ℝ :=
  let max_exp := if b < a then a else b
  Real.log (Real.exp (a - max_exp) + Real.exp (b - max_exp)) + max_exp

/-- `log_sum_exp(a, size)` of eagle.c line 95: running maximum from `a[0]`,
then `log` of the sum of `exp (a[i] - max_exp)`, plus the maximum.  The C
function requires `size ≥ 1`; on the empty list we return 0 (never used). -/
noncomputable def log_sum_exp (l : List ℝ) : ℝ :=
  match l with
  | [] => 0
  | a :: t =>
    let max_exp := t.foldl (fun acc x => if acc < x then x else acc) a
    Real.log (((a :: t).map (fun x => Real.exp (x - max_exp))).sum) + max_exp

theorem if_lt_eq_max (a b : ℝ) : (if b < a then a else b) = max a b := by
  rcases le_or_lt a b with h | h
  · simp [not_lt.mpr h, max_eq_right h]
  · simp [h, max_eq_left h.le]

/-- The defining algebraic fact: `exp (log_add_exp a b) = exp a + exp b`. -/
theorem exp_log_add_exp (a b : ℝ) :
    Real.exp (log_add_exp a b) = Real.exp a + Real.exp b := by
  unfold log_add_exp
  rw [if_lt_eq_max]
  have hpos : 0 < Real.exp (a - max a b) + Real.exp (b - max a b) :=
    add_pos (Real.exp_pos _) (Real.exp_pos _)
  rw [Real.exp_add, Real.exp_log hpos, add_mul, ← Real.exp_add, ← Real.exp_add]
  simp

theorem log_add_exp_comm (a b : ℝ) : log_add_exp a b = log_add_exp b a := by
  have h := exp_log_add_exp a b
  rw [add_comm, ← exp_log_add_exp b a] at h
  exact Real.exp_injective h

theorem le_log_add_exp_left (a b : ℝ) : a ≤ log_add_exp a b := by
  have h1 : Real.exp a ≤ Real.exp (log_add_exp a b) := by
    rw [exp_log_add_exp]; linarith [Real.exp_pos b]
  exact (Real.exp_le_exp).1 h1

theorem max_le_log_add_exp (a b : ℝ) : max a b ≤ log_add_exp a b := by
  refine max_le (le_log_add_exp_left a b) ?_
  rw [log_add_exp_comm]; exact le_log_add_exp_left b a

theorem log_add_exp_lt_log_add_exp_left {a a' : ℝ} (b : ℝ) (h : a < a') :
    log_add_exp a b < log_add_exp a' b := by
  have : Real.exp (log_add_exp a b) < Real.exp (log_add_exp a' b) := by
    rw [exp_log_add_exp, exp_log_add_exp]
    exact add_lt_add_right (Real.exp_lt_exp.2 h) _
  exact Real.exp_lt_exp.1 this

/-- `log_add_exp (log x) (log y) = log (x + y)` for positive reals. -/
theorem log_add_exp_log {x y : ℝ} (hx : 0 < x) (hy : 0 < y) :
    log_add_exp (Real.log x) (Real.log y) = Real.log (x + y) := by
  apply Real.exp_injective
  rw [exp_log_add_exp, Real.exp_log hx, Real.exp_log hy,
    Real.exp_log (add_pos hx hy)]

/-- As its first argument tends to `−∞`, `log_add_exp a x` tends to `x`:
the rendering of the spec's `log_add_exp (−∞, x) = x` over the reals. -/
theorem log_add_exp_tendsto_atBot (x : ℝ) :
    Tendsto (fun a => log_add_exp a x) atBot (nhds x) := by
  have hexp : Tendsto (fun a : ℝ => Real.exp (log_add_exp a x)) atBot
      (nhds (Real.exp x)) := by
    have h1 : Tendsto (fun a : ℝ => Real.exp a + Real.exp x) atBot
        (nhds (0 + Real.exp x)) :=
      Tendsto.add_const _ Real.tendsto_exp_atBot
    simp only [zero_add] at h1
    refine h1.congr fun a => ?_
    rw [exp_log_add_exp]
  have hlog : Tendsto (fun a : ℝ => Real.log (Real.exp (log_add_exp a x)))
      atBot (nhds (Real.log (Real.exp x))) :=
    ((Real.continuousAt_log (Real.exp_pos x).ne').tendsto).comp hexp
  simp only [Real.log_exp] at hlog
  exact hlog

theorem log_sum_exp_singleton (x : ℝ) : log_sum_exp [x] = x := by
  simp [log_sum_exp]

theorem foldl_if_max (a : ℝ) (t : List ℝ) :
    t.foldl (fun acc x => if acc < x then x else acc) a = t.foldl max a := by
  induction t generalizing a with
  | nil => rfl
  | cons b t ih =>
    simp only [List.foldl_cons, ih]
    congr 1
    rcases le_or_lt b a with h | h
    · simp [not_lt.mpr h, max_eq_left h]
    · simp [h, max_eq_right h.le]

theorem log_sum_exp_cons (a : ℝ) (t : List ℝ) :
    log_sum_exp (a :: t) =
      Real.log (((a :: t).map (fun x => Real.exp (x - t.foldl max a))).sum)
        + t.foldl max a := by
  simp only [log_sum_exp, foldl_if_max]

theorem foldl_max_le_iff (a c : ℝ) (t : List ℝ) :
    t.foldl max a ≤ c ↔ a ≤ c ∧ ∀ x ∈ t, x ≤ c := by
  induction t generalizing a with
  | nil => simp
  | cons b t ih =>
    simp only [List.foldl_cons, ih, max_le_iff, List.mem_cons]
    constructor
    · rintro ⟨⟨h1, h2⟩, h3⟩
      refine ⟨h1, ?_⟩
      rintro x (rfl | hx)
      · exact h2
      · exact h3 x hx
    · rintro ⟨h1, h2⟩
      exact ⟨⟨h1, h2 b (Or.inl rfl)⟩, fun x hx => h2 x (Or.inr hx)⟩

theorem foldl_max_of_perm {a b : ℝ} {t s : List ℝ}
    (h : (a :: t).Perm (b :: s)) : t.foldl max a = s.foldl max b := by
  have key : ∀ (c : ℝ) (u : List ℝ), c ≤ u.foldl max c ∧
      ∀ x ∈ u, x ≤ u.foldl max c := by
    intro c u
    constructor
    · exact ((foldl_max_le_iff c _ u).1 le_rfl).1
    · exact ((foldl_max_le_iff c _ u).1 le_rfl).2
  apply le_antisymm
  · rw [foldl_max_le_iff]
    have hmem : ∀ x ∈ a :: t, x ≤ s.foldl max b := by
      intro x hx
      rcases List.mem_cons.1 (h.mem_iff.1 hx) with rfl | hs'
      · exact (key x s).1
      · exact (key b s).2 x hs'
    exact ⟨hmem a (List.mem_cons_self a t), fun x hx =>
      hmem x (List.mem_cons_of_mem a hx)⟩
  · rw [foldl_max_le_iff]
    have hmem : ∀ x ∈ b :: s, x ≤ t.foldl max a := by
      intro x hx
      rcases List.mem_cons.1 (h.symm.mem_iff.1 hx) with rfl | ht'
      · exact (key x t).1
      · exact (key a t).2 x ht'
    exact ⟨hmem b (List.mem_cons_self b s), fun x hx =>
      hmem x (List.mem_cons_of_mem b hx)⟩

theorem log_sum_exp_perm {l l' : List ℝ} (h : l.Perm l') :
    log_sum_exp l = log_sum_exp l' := by
  cases l with
  | nil =>
    cases l' with
    | nil => rfl
    | cons b t => exact absurd h.length_eq (by simp)
  | cons a t =>
    cases l' with
    | nil => exact absurd h.length_eq (by simp)
    | cons b s =>
      rw [log_sum_exp_cons, log_sum_exp_cons, foldl_max_of_perm h]
      congr 2
      exact (h.map _).sum_eq

/-! ### Precalculated constants (eagle.c lines 24-38) -/

/-- `ALPHA = 1.3`. -/
noncomputable def LGALPHA : ℝ := Real.log (13 / 10)

/-- `OMEGA = 1.0e-4`; `LGOMEGA = log(OMEGA)`. -/
noncomputable def LGOMEGA : ℝ := Real.log (1 / 10000)

/-- `LG1_OMEGA = log(1.0 - OMEGA)`. -/
noncomputable def LG1_OMEGA : ℝ := Real.log (9999 / 10000)

/-- `REFPRIOR = log(0.5)`. -/
noncomputable def REFPRIOR : ℝ := Real.log (1 / 2)

noncomputable def LG3 : ℝ := Real.log 3

noncomputable def LG50 : ℝ := Real.log (1 / 2)

noncomputable def LG10 : ℝ := Real.log (1 / 10)

noncomputable def LG90 : ℝ := Real.log (9 / 10)

/-- `M_1_LOG10E = 1.0 / M_LOG10E`, i.e. the natural log of 10. -/
noncomputable def M_1_LOG10E : ℝ := Real.log 10

/-- `M_1_LN10 = 1.0 / M_LN10`. -/
noncomputable def M_1_LN10 : ℝ := 1 / Real.log 10

/-! ### Mapping tables (eagle.c lines 1064-1077) -/

/-- `seqnt_map`: A,T,G,C,N ↦ 0..4, any other letter ↦ 4 (the table is
`memset` to 4 before the five entries are written). -/
def seqnt_map (c : Char) : Nat :=
  if c = 'A' then 0
  else if c = 'T' then 1
  else if c = 'G' then 2
  else if c = 'C' then 3
  else 4

/-- `compl_map`: A↔T, C↔G, N↦N; all other entries are `memset` to 0. -/
def compl_map (c : Char) : Char :=
  if c = 'A' then 'T'
  else if c = 'T' then 'A'
  else if c = 'C' then 'G'
  else if c = 'G' then 'C'
  else if c = 'N' then 'N'
  else Char.ofNat 0

/-! ### ReadModel (eagle.c lines 106-155)

The `double` matrix `matrix[5 * b + i]` is modelled as a curried function of
the row `b` and the column `i`. -/

/-- `reverse(a, size)` (eagle.c line 106) on a list. -/
def reverse_list (a : List ℝ) : List ℝ := a.reverse

/-- `reverse_compl(a, size)` (eagle.c line 113). -/
def reverse_compl (a : List Char) : List Char := (a.map compl_map).reverse

/-- `set_prob_matrix` (eagle.c line 121): every column of row `b` is
`no_match b`, except column `seqnt_map seq[b]` which is `is_match b`. -/
def set_prob_matrix (seq : List Char) (is_match no_match : Nat → ℝ) :
    Nat → Nat → ℝ :=
  fun b i => if i = seqnt_map (seq.getD b 'A') then is_match b else no_match b

/-- Loop body of `calc_prob` (eagle.c lines 129-139): iterate `b` from `pos`
for `steps` iterations (`steps` starts at `read_length`); skip `b < 0`,
stop at `b ≥ seq_length`, accumulate the matrix entry, and stop early when
the running sum drops more than 10 below `baseline`. -/
noncomputable def calc_prob_go (matrix : Nat → Nat → ℝ) (seq : List Char) (pos : Int)
    (baseline : ℝ) : Int → Nat → ℝ → ℝ
  | _, 0, acc => acc
  | b, steps + 1, acc =>
    if b < 0 then calc_prob_go matrix seq pos baseline (b + 1) steps acc
    else if (seq.length : Int) ≤ b then acc
    else
      let acc' := acc + matrix (b - pos).toNat (seqnt_map (seq.getD b.toNat 'A'))
      if acc' < baseline - 10 then acc'
      else calc_prob_go matrix seq pos baseline (b + 1) steps acc'

/-- `calc_prob(matrix, read_length, seq, seq_length, pos, baseline)`
(eagle.c line 129).  `seq_length` is the length of `seq` in every call. -/
noncomputable def calc_prob (matrix : Nat → Nat → ℝ) (read_length : Nat) (seq : List Char)
    (pos : Int) (baseline : ℝ) : ℝ :=
  calc_prob_go matrix seq pos baseline pos read_length 0

/-- Loop body of `calc_prob_distrib` (eagle.c lines 148-153): iterate the
shift `i` from `pos - read_length` for `2 * read_length` iterations; skip
shifts with `i + read_length < 0`, stop at `i ≥ seq_length`; fold each
shifted `calc_prob` into the running total (the total `0` is used as an
"empty" sentinel) and raise `baseline` to the running total. -/
noncomputable def calc_prob_distrib_go (matrix : Nat → Nat → ℝ)
    (read_length : Nat) (seq : List Char) : Int → Nat → ℝ → ℝ → ℝ
  | _, 0, probability, _ => probability
  | i, steps + 1, probability, baseline =>
    if i + read_length < 0 then
      calc_prob_distrib_go matrix read_length seq (i + 1) steps probability
        baseline
    else if (seq.length : Int) ≤ i then probability
    else
      let p := calc_prob matrix read_length seq i baseline
      let probability' := if probability = 0 then p
        else log_add_exp probability p
      let baseline' := if baseline < probability' then probability'
        else baseline
      calc_prob_distrib_go matrix read_length seq (i + 1) steps probability'
        baseline'

/-- `calc_prob_distrib(matrix, read_length, seq, seq_length, pos)`
(eagle.c line 142): the baseline is seeded with `calc_prob` at `pos` with
baseline `-1000`. -/
noncomputable def calc_prob_distrib (matrix : Nat → Nat → ℝ)
    (read_length : Nat) (seq : List Char) (pos : Int) : ℝ :=
  calc_prob_distrib_go matrix read_length seq (pos - read_length)
    (2 * read_length) 0 (calc_prob matrix read_length seq pos (-1000))

/-- C10: a window entirely past the end of the sequence.  The first shift
`pos - read_length` already satisfies `i ≥ seq_length`, so the loop exits
with the initial total `0`. -/
theorem calc_prob_distrib_out_of_range (matrix : Nat → Nat → ℝ)
    (read_length : Nat) (seq : List Char) (pos : Int)
    (h : (seq.length : Int) + read_length ≤ pos) :
    calc_prob_distrib matrix read_length seq pos = 0 := by
  unfold calc_prob_distrib
  rcases n : 2 * read_length with _ | steps
  · simp [calc_prob_distrib_go]
  · unfold calc_prob_distrib_go
    have h1 : ¬ (pos < 0) := by omega
    have h2 : (seq.length : Int) ≤ pos - read_length := by omega
    simp [h1, h2]

/-! ### Combination enumeration (eagle.c lines 157-197)

`combinations(output, k, n, ncombos)` appends every `k`-combination of
`{0, …, n−1}` to a delimited string, starting from `(0, 1, …, k−1)` and
repeatedly forming the next combination in lexicographic order (the
`++c[i]` / carry loop of lines 169-178).  The delimited-string encoding is
an artifact; we model the emitted sequence as a list of index lists.
`combosFrom n k a` enumerates, in the same lexicographic order, the
`k`-combinations of `{a, …, n−1}`: the first element `i` runs upward and the
remaining elements are the `(k−1)`-combinations of `{i+1, …, n−1}`. -/
def combosFrom (n : Nat) : Nat → Nat → List (List Nat)
  | 0, _ => [[]]
  | k + 1, a =>
    (List.range' a (n - a)).bind
      (fun i => (combosFrom n k (i + 1)).map (fun c => i :: c))

/-- The sequence of combinations emitted by `combinations(output, k, n,
ncombos)` (eagle.c line 157). -/
def combinations (k n : Nat) : List (List Nat) := combosFrom n k 0

/-- Loop of `powerset` over sizes `k = 2 … n−1` (eagle.c lines 190-194):
emit all of size `k`, then stop if `ncombos - n - 1 >= maxh` (the break is
checked only after a size is complete, and since `ncombos ≥ n + 1` here the
`int` test is equivalent to `maxh + n + 1 ≤ ncombos`).  `nc` is the running
`ncombos`; `fuel` bounds the remaining loop iterations (the loop runs while
`k ≤ n − 1`, so any `fuel` with `n ≤ k + fuel` reproduces the C loop). -/
def powerset_go (n maxh : Nat) : Nat → Nat → Nat → List (List Nat)
  | 0, _, _ => []
  | fuel + 1, k, nc =>
    if k < n then
      combinations k n ++
        (if maxh + n + 1 ≤ nc + (combinations k n).length then []
         else powerset_go n maxh fuel (k + 1) (nc + (combinations k n).length))
    else []

/-- `powerset(n, ncombos)` (eagle.c line 183): all singletons, then (for
`n > 1`) the full set, then sizes `2 … n−1` until the `maxh` cutoff. -/
def powerset (n maxh : Nat) : List (List Nat) :=
  combinations 1 n ++
    (if 1 < n then combinations n n ++ powerset_go n maxh n 2 (n + 1) else [])

/-- The final `ncombos` produced by `powerset`. -/
def ncombos_of (n maxh : Nat) : Nat := (powerset n maxh).length

theorem combosFrom_succ_split (n k a : Nat) (h : a < n) :
    combosFrom n (k + 1) a =
      (combosFrom n k (a + 1)).map (fun c => a :: c)
        ++ combosFrom n (k + 1) (a + 1) := by
  conv_lhs => rw [combosFrom]
  have hr : n - a = (n - (a + 1)) + 1 := by omega
  rw [hr, List.range'_succ]
  simp only [List.cons_bind]
  rfl

theorem combosFrom_ge (n k a : Nat) (h : n ≤ a) :
    combosFrom n (k + 1) a = [] := by
  rw [combosFrom]
  have : n - a = 0 := by omega
  simp [this]

/-- Number of emitted `k`-combinations of `{a, …, n−1}`: the binomial
coefficient `(n−a) choose k`. -/
theorem combosFrom_length (n : Nat) :
    ∀ k a, (combosFrom n k a).length = (n - a).choose k := by
  intro k
  induction k with
  | zero => intro a; simp [combosFrom]
  | succ k ih =>
    intro a
    have hm : ∀ m a, n - a = m →
        (combosFrom n (k + 1) a).length = (n - a).choose (k + 1) := by
      intro m
      induction m with
      | zero => intro a ha; rw [combosFrom_ge n k a (by omega), ha]; simp
      | succ m ihm =>
        intro a ha
        rw [combosFrom_succ_split n k a (by omega), List.length_append,
          List.length_map, ih (a + 1), ihm (a + 1) (by omega)]
        have h1 : n - a = (n - (a + 1)) + 1 := by omega
        rw [h1, Nat.choose_succ_succ]
    exact hm (n - a) a rfl

theorem combinations_length (k n : Nat) :
    (combinations k n).length = n.choose k := by
  rw [combinations, combosFrom_length]; simp

/-- Every emitted combination of `combosFrom n k a` has length `k`. -/
theorem combosFrom_mem_length (n : Nat) :
    ∀ k a c, c ∈ combosFrom n k a → c.length = k := by
  intro k
  induction k with
  | zero => intro a c hc; simp [combosFrom] at hc; simp [hc]
  | succ k ih =>
    intro a c hc
    rw [combosFrom] at hc
    simp only [List.mem_bind, List.mem_map] at hc
    obtain ⟨i, _, d, hd, rfl⟩ := hc
    simp [ih (i + 1) d hd]

/-- Every emitted combination of positive size starts with an element
`≥ a`. -/
theorem combosFrom_head_ge (n : Nat) :
    ∀ k a c, c ∈ combosFrom n (k + 1) a → ∃ i t, c = i :: t ∧ a ≤ i := by
  intro k a c hc
  rw [combosFrom] at hc
  simp only [List.mem_bind, List.mem_map] at hc
  obtain ⟨i, hi, d, _, rfl⟩ := hc
  exact ⟨i, d, rfl, by simp [List.mem_range'] at hi; omega⟩

/-- The combinations of one size are emitted in strictly ascending
lexicographic order. -/
theorem combosFrom_pairwise_lex (n : Nat) :
    ∀ k a, (combosFrom n k a).Pairwise (List.Lex (· < ·)) := by
  intro k
  induction k with
  | zero => intro a; simp [combosFrom]
  | succ k ih =>
    intro a
    have hm : ∀ m a, n - a = m →
        (combosFrom n (k + 1) a).Pairwise (List.Lex (· < ·)) := by
      intro m
      induction m with
      | zero => intro a ha; rw [combosFrom_ge n k a (by omega)]; simp
      | succ m ihm =>
        intro a ha
        rw [combosFrom_succ_split n k a (by omega)]
        rw [List.pairwise_append]
        refine ⟨?_, ihm (a + 1) (by omega), ?_⟩
        · exact (ih (a + 1)).map _ (fun c d h => List.Lex.cons h)
        · intro x hx y hy
          simp only [List.mem_map] at hx
          obtain ⟨c, _, rfl⟩ := hx
          obtain ⟨i, t, rfl, hi⟩ := combosFrom_head_ge n k (a + 1) y hy
          exact List.Lex.rel (by omega)
    exact hm (n - a) a rfl

theorem bind_single_eq_map {α β : Type} (f : α → β) :
    ∀ l : List α, (l.bind (fun x => [f x])) = l.map f := by
  intro l
  induction l with
  | nil => rfl
  | cons a t ih => simp only [List.cons_bind, ih, List.map_cons]; rfl

/-- The `k = 1` call emits the `n` singletons in order. -/
theorem combinations_one (n : Nat) :
    combinations 1 n = (List.range n).map (fun i => [i]) := by
  rw [combinations, combosFrom, List.range_eq_range']
  simp only [combosFrom, List.map_cons, List.map_nil, Nat.sub_zero]
  exact bind_single_eq_map (fun i => [i]) (List.range' 0 n)

/-- If the ground set `{a, …, n−1}` has fewer than `k` elements, no
`k`-combination is emitted. -/
theorem combosFrom_empty_of_lt (n k a : Nat) (h : n - a < k) :
    combosFrom n k a = [] :=
  List.length_eq_zero.mp
    (by rw [combosFrom_length]; exact Nat.choose_eq_zero_of_lt h)

/-- The `k = n` call emits exactly the full set. -/
theorem combosFrom_full (n : Nat) :
    ∀ m a, n - a = m → combosFrom n m a = [List.range' a m] := by
  intro m
  induction m with
  | zero => intro a _; simp [combosFrom]
  | succ m ihm =>
    intro a ha
    rw [combosFrom_succ_split n m a (by omega), ihm (a + 1) (by omega),
      combosFrom_empty_of_lt n (m + 1) (a + 1) (by omega)]
    simp [List.range'_succ]

theorem combinations_full (n : Nat) : combinations n n = [List.range n] := by
  rw [combinations, combosFrom_full n n 0 (by omega), List.range_eq_range']

/-- Enough fuel: `powerset_go` emits a contiguous ascending run of sizes
starting at `k` and staying below `n`. -/
theorem powerset_go_struct (n maxh : Nat) :
    ∀ fuel k nc, n ≤ k + fuel → k ≤ n →
      ∃ m, k + m ≤ n ∧
        powerset_go n maxh fuel k nc =
          (List.range' k m).bind (fun j => combinations j n) := by
  intro fuel
  induction fuel with
  | zero =>
    intro k nc hf hkn
    exact ⟨0, by omega, by simp [powerset_go]⟩
  | succ fuel ih =>
    intro k nc hf hkn
    by_cases hk : k < n
    · by_cases hstop : maxh + n + 1 ≤ nc + (combinations k n).length
      · refine ⟨1, by omega, ?_⟩
        simp [powerset_go, hk, hstop, List.range']
      · obtain ⟨m, hm, heq⟩ := ih (k + 1) (nc + (combinations k n).length)
          (by omega) (by omega)
        refine ⟨m + 1, by omega, ?_⟩
        simp only [powerset_go, if_pos hk, if_neg hstop, heq,
          List.range'_succ, List.cons_bind]
    · exact ⟨0, by omega, by simp [powerset_go, hk]⟩

/-- Either the `maxh` cutoff never fired and every size `k … n−1` was
emitted, or the cutoff fired and the final count is at least
`maxh + n + 1`. -/
theorem powerset_go_length (n maxh : Nat) :
    ∀ fuel k nc, n ≤ k + fuel →
      nc + (powerset_go n maxh fuel k nc).length =
        nc + ((List.range' k (n - k)).map
          (fun j => (combinations j n).length)).sum
      ∨ maxh + n + 1 ≤ nc + (powerset_go n maxh fuel k nc).length := by
  intro fuel
  induction fuel with
  | zero =>
    intro k nc hf
    left
    have h0 : n - k = 0 := by omega
    simp [powerset_go, h0]
  | succ fuel ih =>
    intro k nc hf
    by_cases hk : k < n
    · by_cases hstop : maxh + n + 1 ≤ nc + (combinations k n).length
      · right
        simp only [powerset_go, if_pos hk, if_pos hstop, List.append_nil]
        exact hstop
      · have hrange : List.range' k (n - k) =
            k :: List.range' (k + 1) (n - (k + 1)) := by
          conv_lhs => rw [(by omega : n - k = (n - (k + 1)) + 1)]
          rw [List.range'_succ]
        rcases ih (k + 1) (nc + (combinations k n).length) (by omega)
          with hl | hr
        · left
          simp only [powerset_go, if_pos hk, if_neg hstop,
            List.length_append, hrange, List.map_cons, List.sum_cons] at hl ⊢
          omega
        · right
          simp only [powerset_go, if_pos hk, if_neg hstop,
            List.length_append] at hr ⊢
          omega
    · left
      have h0 : n - k = 0 := by omega
      simp [powerset_go, hk, h0]

theorem list_range_map_sum (m : Nat) (f : Nat → Nat) :
    ((List.range m).map f).sum = ∑ i ∈ Finset.range m, f i := by
  induction m with
  | zero => simp
  | succ m ih =>
    rw [List.range_succ, List.map_append, List.sum_append,
      Finset.sum_range_succ, ih]
    simp

/-- `∑_{j=1}^{n} C(n,j) = 2^n − 1`. -/
theorem sum_range'_one_choose (n : Nat) :
    ((List.range' 1 n).map (n.choose ·)).sum = 2 ^ n - 1 := by
  have h0 : List.range (n + 1) = 0 :: List.range' 1 n := by
    rw [List.range_eq_range', List.range'_succ]
  have h1 := list_range_map_sum (n + 1) (n.choose ·)
  rw [h0, List.map_cons, List.sum_cons, Nat.sum_range_choose] at h1
  have h2 : 1 ≤ 2 ^ n := Nat.one_le_two_pow
  simp only [Nat.choose_zero_right] at h1
  omega

/-- Splitting `∑_{j=1}^{n}` as `C(n,1) + ∑_{j=2}^{n−1} + C(n,n)`
(for `2 ≤ n`). -/
theorem sum_range'_one_split (n : Nat) (hn : 2 ≤ n) :
    ((List.range' 1 n).map (n.choose ·)).sum =
      n + 1 + ((List.range' 2 (n - 2)).map (n.choose ·)).sum := by
  have h1 : List.range' 1 n = 1 :: List.range' 2 (n - 1) := by
    conv_lhs => rw [(by omega : n = (n - 1) + 1)]
    rw [List.range'_succ]
  have h2 : List.range' 2 (n - 1) =
      List.range' 2 (n - 2) ++ [2 + 1 * (n - 2)] := by
    conv_lhs => rw [(by omega : n - 1 = (n - 2) + 1)]
    rw [List.range'_concat]
  have h3 : 2 + 1 * (n - 2) = n := by omega
  rw [h1, List.map_cons, List.sum_cons, h2, h3, List.map_append,
    List.sum_append]
  simp only [List.map_cons, List.map_nil, List.sum_cons, List.sum_nil,
    Nat.choose_one_right, Nat.choose_self]
  omega

/-- Monotonicity of the partial sums of sizes `2 …`. -/
theorem sum_range'_two_le (n : Nat) {m : Nat} (hm : m ≤ n - 2) :
    ((List.range' 2 m).map (n.choose ·)).sum ≤
      ((List.range' 2 (n - 2)).map (n.choose ·)).sum := by
  have h := List.range'_append 2 m (n - 2 - m) 1
  simp only [one_mul] at h
  have hsplit : List.range' 2 (n - 2) =
      List.range' 2 m ++ List.range' (2 + m) (n - 2 - m) := by
    rw [h]
    congr 1
    omega
  rw [hsplit, List.map_append, List.sum_append]
  omega

/-- Count bounds for the full enumeration: `ncombos` never exceeds
`2^n − 1`, and it is at least `min (2^n − 1) (maxh + n + 1)` — but, because
the cutoff is only checked after a whole size is emitted, it can strictly
exceed `maxh + n + 1`. -/
theorem ncombos_of_bounds (n maxh : Nat) (hn : 2 ≤ n) :
    ncombos_of n maxh ≤ 2 ^ n - 1 ∧
    min (2 ^ n - 1) (maxh + n + 1) ≤ ncombos_of n maxh := by
  have hlen1 : (combinations 1 n).length = n := by
    rw [combinations_length, Nat.choose_one_right]
  have hlenn : (combinations n n).length = 1 := by
    rw [combinations_length, Nat.choose_self]
  have htotal : n + 1 + ((List.range' 2 (n - 2)).map (n.choose ·)).sum =
      2 ^ n - 1 := by
    rw [← sum_range'_one_split n hn, sum_range'_one_choose]
  have hconv : ∀ m, ((List.range' 2 m).map
      (fun j => (combinations j n).length)).sum =
      ((List.range' 2 m).map (n.choose ·)).sum := by
    intro m
    congr 1
    exact List.map_congr_left (fun j _ => combinations_length j n)
  have hunfold : ncombos_of n maxh =
      n + 1 + (powerset_go n maxh n 2 (n + 1)).length := by
    unfold ncombos_of powerset
    rw [if_pos (by omega : 1 < n), List.length_append, List.length_append,
      hlen1, hlenn]
    omega
  constructor
  · obtain ⟨m, hm, heq⟩ := powerset_go_struct n maxh n 2 (n + 1)
      (by omega) (by omega)
    rw [hunfold, heq, List.length_bind]
    simp only [Function.comp_def]
    rw [hconv m]
    have := sum_range'_two_le n (show m ≤ n - 2 by omega)
    omega
  · rcases powerset_go_length n maxh n 2 (n + 1) (by omega) with hl | hr
    · rw [hunfold]
      rw [hconv (n - 2)] at hl
      have : (powerset_go n maxh n 2 (n + 1)).length =
          ((List.range' 2 (n - 2)).map (n.choose ·)).sum := by omega
      rw [this]
      omega
    · rw [hunfold]
      have : min (2 ^ n - 1) (maxh + n + 1) ≤ maxh + n + 1 :=
        min_le_right _ _
      omega

/-! ### Variants (eagle.h / read_vcf) -/

/-- A VCF variant record: `{chr, pos (1-based int), ref, alt}`.  Equality is
on all four fields, exactly as `find_variant` compares them. -/
structure Variant where
  chr : String
  pos : Int
  ref : String
  alt : String
deriving DecidableEq, Repr

/-! ### AltBuilder (`construct_altseq`, eagle.c lines 553-596) -/

/-- The in-place overwrite loop for equal-length replacements (eagle.c
line 580): `altseq[j + pos] = var_alt[j]`.  The C code indexes the buffer
directly; positions outside `[0, length)` are undefined behaviour there and
are modelled as no-ops here (they never arise for in-range variants). -/
def overwrite_at : List Char → Int → List Char → List Char
  | l, _, [] => l
  | l, p, c :: cs =>
    overwrite_at (if 0 ≤ p then l.set p.toNat c else l) (p + 1) cs

/-- One iteration of the variant-application loop of `construct_altseq`:
effective position `pos = curr.pos − 1 + offset`; a ref of `"-"` (checked on
its first byte) becomes a pure insertion at `pos + 1`, an alt of `"-"` a
pure deletion; `delta = |alt| − |ref|`; equal lengths overwrite in place,
otherwise the sequence is spliced as prefix ++ alt ++ suffix. -/
def construct_altseq_step (acc : List Char × Int) (curr : Variant) :
    List Char × Int :=
  let altseq := acc.1
  let offset := acc.2
  let pos0 : Int := curr.pos - 1 + offset
  let pva :=
    if curr.ref.data.head? = some '-' then (pos0 + 1, "".data, curr.alt.data)
    else if curr.alt.data.head? = some '-' then (pos0, curr.ref.data, "".data)
    else (pos0, curr.ref.data, curr.alt.data)
  let pos := pva.1
  let var_ref := pva.2.1
  let var_alt := pva.2.2
  let delta : Int := (var_alt.length : Int) - var_ref.length
  if delta = 0 then (overwrite_at altseq pos var_alt, offset)
  else
    (altseq.take pos.toNat ++ var_alt
        ++ altseq.drop (pos + var_ref.length).toNat,
      offset + delta)

/-- `construct_altseq(refseq, refseq_length, var_combo, altseq_length)`
(eagle.c line 553): start from a copy of the reference with offset 0 and
apply the variants of the combination in order. -/
def construct_altseq (refseq : List Char) (var_combo : List Variant) :
    List Char :=
  (var_combo.foldl construct_altseq_step (refseq, 0)).1

/-! ### `find_variant` (eagle.c lines 598-610) -/

/-- Binary-search loop of `find_variant`: interval `[i, j]`, probe
`n = (i + j) / 2`, full four-field equality at the probe, and `pos`-only
navigation.  In the C loop `i` starts at 0 and never decreases, so it is
carried as a `Nat`; `fuel` bounds the iteration count (each iteration
shrinks `j − i`, so `size + 1` iterations always suffice). -/
def find_variant_go (a : List Variant) (v : Variant) :
    Nat → Nat → Int → Int
  | 0, _, _ => -1
  | fuel + 1, i, j =>
    if (i : Int) ≤ j then
      let n := (i + j.toNat) / 2
      let curr := a.getD n (Variant.mk "" 0 "" "")
      if v = curr then (n : Int)
      else if curr.pos < v.pos then find_variant_go a v fuel (n + 1) j
      else find_variant_go a v fuel i ((n : Int) - 1)
    else -1

/-- `find_variant(a, v)`: index of `v` in the combination (by binary search
over `pos`), or −1. -/
def find_variant (a : List Variant) (v : Variant) : Int :=
  find_variant_go a v (a.length + 1) 0 ((a.length : Int) - 1)

/-! ### `parse_num` (eagle.c lines 76-82) and option validation

`parse_num` calls `strtol(str, &end, 0)` — an *integer* parse with
automatic base detection — and dies via `exit_err` when the conversion
leaves a non-empty remainder.  `strtol` is modelled per its C-standard
contract for base 0 (whitespace, optional sign, `0x` hex prefix, `0` octal
prefix, else decimal; on no conversion `end == str`); overflow clamping is
irrelevant for the short inputs considered here. -/

def is_space_c (c : Char) : Bool :=
  c = ' ' ∨ c = '\t' ∨ c = '\n' ∨ c = '\x0b' ∨ c = '\x0c' ∨ c = '\r'

def skip_ws : List Char → List Char
  | [] => []
  | c :: cs => if is_space_c c then skip_ws cs else c :: cs

def is_oct_digit (c : Char) : Bool := '0' ≤ c ∧ c ≤ '7'

def is_hex_digit (c : Char) : Bool :=
  c.isDigit ∨ ('a' ≤ c ∧ c ≤ 'f') ∨ ('A' ≤ c ∧ c ≤ 'F')

def hex_val (c : Char) : Nat :=
  if c.isDigit then c.toNat - '0'.toNat
  else if 'a' ≤ c ∧ c ≤ 'f' then c.toNat - 'a'.toNat + 10
  else if 'A' ≤ c ∧ c ≤ 'F' then c.toNat - 'A'.toNat + 10
  else 0

def digits_val (base : Nat) (ds : List Char) : Nat :=
  ds.foldl (fun acc c => acc * base + hex_val c) 0

/-- `strtol(s, &end, 0)`: returns the parsed value and the remainder of the
string after `end`.  In the no-conversion case the remainder is the whole
input (i.e. `end == str`). -/
def strtol_base0 (s : List Char) : Int × List Char :=
  let t := skip_ws s
  let st :=
    match t with
    | '-' :: r => ((-1 : Int), r)
    | '+' :: r => ((1 : Int), r)
    | r => ((1 : Int), r)
  let sign := st.1
  match st.2 with
  | '0' :: x :: r =>
    if (x = 'x' ∨ x = 'X') ∧ (r.head?.elim false is_hex_digit) then
      let p := r.span is_hex_digit
      (sign * digits_val 16 p.1, p.2)
    else
      let p := (x :: r).span is_oct_digit
      (sign * digits_val 8 p.1, p.2)
  | ['0'] => (0, [])
  | u =>
    let p := u.span (·.isDigit)
    if p.1 = [] then (0, s)
    else (sign * digits_val 10 p.1, p.2)

/-- `parse_num(str)` (eagle.c line 76): `none` models the fatal
`exit_err("failed to convert …")` when characters remain after the parsed
prefix. -/
def parse_num (str : String) : Option Int :=
  let r := strtol_base0 str.data
  if r.2 ≠ str.data ∧ r.2 ≠ [] then none else some r.1

/-- `main`'s handling of `-b` alias `--hetbias` (eagle.c lines 1045, 1055):
the option string goes through the *integer* `parse_num`, and an
out-of-range result is silently replaced by the default 0.5 — there is no
usage message and no exit for out-of-range values. -/
noncomputable def main_hetbias (optarg : String) : Option ℝ :=
  (parse_num optarg).map (fun num =>
    if (num : ℝ) < 0 ∨ 1 < (num : ℝ) then (0.5 : ℝ) else (num : ℝ))

/-! ### Grouper (`process_variants`, eagle.c lines 914-946)

The grouping walk collects maximal runs of consecutive variants with equal
`chr` and `|pos_j − pos_{j−1}| ≤ distlim` (lines 918-925); same-position
splitting (lines 927-946) then repeatedly duplicates any set containing two
*adjacent* entries at one position, deleting one copy from each, until a
whole pass makes no change. -/

/-- Inner extension loop of the grouping walk: keep taking variants while
`distlim > 0`, the chromosome is unchanged and the position gap from the
previous variant is at most `distlim`. -/
def group_take (distlim : Int) : Variant → List Variant →
    List Variant × List Variant
  | _, [] => ([], [])
  | prev, v :: rest =>
    if 0 < distlim ∧ v.chr = prev.chr ∧ |v.pos - prev.pos| ≤ distlim then
      let tr := group_take distlim v rest
      (v :: tr.1, tr.2)
    else ([], v :: rest)

/-- Outer grouping walk; `fuel` (one unit per produced set) makes the
recursion structural — `l.length` always suffices since every set consumes
at least one variant. -/
def group_sets_go (distlim : Int) : Nat → List Variant → List (List Variant)
  | 0, _ => []
  | _ + 1, [] => []
  | fuel + 1, v :: rest =>
    let tr := group_take distlim v rest
    (v :: tr.1) :: group_sets_go distlim fuel tr.2

/-- The hypothesis sets produced by the grouping walk of
`process_variants`. -/
def group_sets (distlim : Int) (l : List Variant) : List (List Variant) :=
  group_sets_go distlim l.length l

/-- Inner `j` loop of same-position splitting (eagle.c lines 933-943) on a
single set: on an adjacent equal-position pair at `(j, j+1)`, duplicate the
set, delete entry `j` from the original and entry `j+1` from the duplicate,
and continue scanning the *modified* set from `j+1`.  Returns the modified
set and the duplicates in production order.  `fuel` bounds the iteration
count; `l.length` always suffices because `length − j` shrinks at every
step. -/
def split_pass : Nat → List Variant → Nat → List Variant × List (List Variant)
  | 0, l, _ => (l, [])
  | fuel + 1, l, j =>
    if h : j + 1 < l.length then
      if (l.get ⟨j, by omega⟩).pos = (l.get ⟨j + 1, h⟩).pos then
        let dup := l.eraseIdx (j + 1)
        let res := split_pass fuel (l.eraseIdx j) (j + 1)
        (res.1, dup :: res.2)
      else split_pass fuel l (j + 1)
    else (l, [])

/-- One pass of the splitting `while` loop over all sets: size-1 sets are
skipped, and the duplicates of all sets are appended (in production order)
after the modified sets.  The `Bool` is the `flag`: whether any duplicate
was produced. -/
def split_round (sets : List (List Variant)) :
    List (List Variant) × Bool :=
  let processed := sets.map (fun s =>
    if s.length = 1 then (s, []) else split_pass s.length s 0)
  (processed.map Prod.fst ++ (processed.map Prod.snd).join,
    !(processed.map Prod.snd).join.isEmpty)

/-- `k` passes of the splitting loop. -/
def split_rounds : Nat → List (List Variant) → List (List Variant)
  | 0, sets => sets
  | k + 1, sets => split_rounds k (split_round sets).1


/-! ### Grouper invariants -/

/-- Relation between consecutive members of a hypothesis set: same
chromosome, position gap at most `distlim`, and (since the input list is
sorted) non-decreasing position. -/
def chainR (d : Int) (a b : Variant) : Prop :=
  a.chr = b.chr ∧ |b.pos - a.pos| ≤ d ∧ a.pos ≤ b.pos

/-- Sortedness of the variant list produced by `read_vcf` (natural order on
`chr`, ties broken by `pos`): consecutive entries on one chromosome have
non-decreasing positions. -/
def vcf_sorted (l : List Variant) : Prop :=
  l.Chain' (fun a b => a.chr = b.chr → a.pos ≤ b.pos)

theorem chainR_subst_left {d : Int} {x a b : Variant} (h1 : chainR d x a)
    (h2 : chainR d a b) (heq : a.pos = b.pos) : chainR d x b := by
  obtain ⟨hc1, hd1, hp1⟩ := h1
  obtain ⟨hc2, hd2, hp2⟩ := h2
  rw [abs_le] at hd1 hd2
  exact ⟨hc1.trans hc2, by rw [abs_le]; omega, by omega⟩

theorem chainR_subst_right {d : Int} {a b c : Variant} (h1 : chainR d a b)
    (h2 : chainR d b c) (heq : a.pos = b.pos) : chainR d a c := by
  obtain ⟨hc1, hd1, hp1⟩ := h1
  obtain ⟨hc2, hd2, hp2⟩ := h2
  rw [abs_le] at hd1 hd2
  exact ⟨hc1.trans hc2, by rw [abs_le]; omega, by omega⟩

/-- Deleting either member of an adjacent equal-position pair preserves the
consecutive-pair invariant. -/
theorem chain_middle_erase {d : Int} (u w : List Variant) (a b : Variant)
    (h : (u ++ a :: b :: w).Chain' (chainR d)) (heq : a.pos = b.pos) :
    (u ++ b :: w).Chain' (chainR d) ∧ (u ++ a :: w).Chain' (chainR d) := by
  rw [List.chain'_append] at h
  obtain ⟨hu, habw, hlink⟩ := h
  rw [List.chain'_cons] at habw
  obtain ⟨hab, hbw⟩ := habw
  constructor
  · rw [List.chain'_append]
    refine ⟨hu, hbw, ?_⟩
    intro x hx y hy
    simp only [List.head?_cons, Option.mem_def, Option.some.injEq] at hy
    subst hy
    exact chainR_subst_left (hlink x hx a (by simp)) hab heq
  · rw [List.chain'_append]
    refine ⟨hu, ?_, ?_⟩
    · cases w with
      | nil => simp
      | cons c w' =>
        rw [List.chain'_cons] at hbw ⊢
        exact ⟨chainR_subst_right hab hbw.1 heq, hbw.2⟩
    · intro x hx y hy
      simp only [List.head?_cons, Option.mem_def, Option.some.injEq] at hy
      subst hy
      exact hlink x hx a (by simp)

/-- Decomposition of a list around an adjacent pair of indices. -/
theorem middle_decomp {α : Type} (l : List α) (j : Nat)
    (h : j + 1 < l.length) :
    l = l.take j ++ l.get ⟨j, by omega⟩ :: l.get ⟨j + 1, h⟩ :: l.drop (j + 2)
      ∧ l.eraseIdx j = l.take j ++ l.get ⟨j + 1, h⟩ :: l.drop (j + 2)
      ∧ l.eraseIdx (j + 1) =
          l.take j ++ l.get ⟨j, by omega⟩ :: l.drop (j + 2) := by
  have hd1 : l.drop j = l.get ⟨j, by omega⟩ :: l.drop (j + 1) := by
    rw [List.drop_eq_getElem_cons (by omega)]
    simp [List.get_eq_getElem]
  have hd2 : l.drop (j + 1) = l.get ⟨j + 1, h⟩ :: l.drop (j + 2) := by
    rw [List.drop_eq_getElem_cons (by omega)]
    simp [List.get_eq_getElem]
  refine ⟨?_, ?_, ?_⟩
  · conv_lhs => rw [← List.take_append_drop j l]
    rw [hd1, hd2]
  · rw [List.eraseIdx_eq_take_drop_succ, hd2]
  · rw [List.eraseIdx_eq_take_drop_succ]
    have ht : l.take (j + 2) = l.take (j + 1) ++ [l.get ⟨j + 1, h⟩] := by
      rw [List.take_succ, List.getElem?_eq_getElem (by omega)]
      simp [List.get_eq_getElem]
    have ht1 : l.take (j + 1) = l.take j ++ [l.get ⟨j, by omega⟩] := by
      rw [List.take_succ, List.getElem?_eq_getElem (by omega)]
      simp [List.get_eq_getElem]
    rw [ht1, List.append_assoc]
    rfl

/-- `split_pass` preserves the consecutive-pair invariant, both in the
modified set and in every duplicate it produces. -/
theorem split_pass_chain (d : Int) :
    ∀ fuel (l : List Variant) (j : Nat), l.Chain' (chainR d) →
      (split_pass fuel l j).1.Chain' (chainR d) ∧
      ∀ S ∈ (split_pass fuel l j).2, S.Chain' (chainR d) := by
  intro fuel
  induction fuel with
  | zero => intro l j hc; exact ⟨hc, by simp [split_pass]⟩
  | succ fuel ih =>
    intro l j hc
    rw [split_pass]
    by_cases h : j + 1 < l.length
    · rw [dif_pos h]
      obtain ⟨hdec, herase1, herase2⟩ := middle_decomp l j h
      by_cases hpos : (l.get ⟨j, by omega⟩).pos = (l.get ⟨j + 1, h⟩).pos
      · rw [if_pos hpos]
        have hmid := chain_middle_erase (l.take j) (l.drop (j + 2))
          (l.get ⟨j, by omega⟩) (l.get ⟨j + 1, h⟩) (hdec ▸ hc) hpos
        have h1 : (l.eraseIdx j).Chain' (chainR d) := by
          rw [herase1]; exact hmid.1
        have h2 : (l.eraseIdx (j + 1)).Chain' (chainR d) := by
          rw [herase2]; exact hmid.2
        obtain ⟨ha, hb⟩ := ih (l.eraseIdx j) (j + 1) h1
        refine ⟨ha, ?_⟩
        intro S hS
        rcases List.mem_cons.1 hS with rfl | hS'
        · exact h2
        · exact hb S hS'
      · rw [if_neg hpos]
        exact ih l (j + 1) hc
    · rw [dif_neg h]
      exact ⟨hc, by simp⟩

/-- If `split_pass` produced no duplicate, it left the set unchanged. -/
theorem split_pass_no_dup_id :
    ∀ fuel (l : List Variant) (j : Nat), (split_pass fuel l j).2 = [] →
      (split_pass fuel l j).1 = l := by
  intro fuel
  induction fuel with
  | zero => intro l j _; rfl
  | succ fuel ih =>
    intro l j hnil
    rw [split_pass] at hnil ⊢
    by_cases h : j + 1 < l.length
    · rw [dif_pos h] at hnil ⊢
      by_cases hpos : (l.get ⟨j, by omega⟩).pos = (l.get ⟨j + 1, h⟩).pos
      · rw [if_pos hpos] at hnil
        simp at hnil
      · rw [if_neg hpos] at hnil ⊢
        exact ih l (j + 1) hnil
    · rw [dif_neg h]

/-- If `split_pass` (with enough fuel) produced no duplicate, then no
adjacent pair at or after the scan start shares a position. -/
theorem split_pass_no_dup_adj :
    ∀ fuel (l : List Variant) (j : Nat), l.length ≤ fuel + j →
      (split_pass fuel l j).2 = [] →
      ∀ i (hi : i + 1 < l.length), j ≤ i →
        (l.get ⟨i, by omega⟩).pos ≠ (l.get ⟨i + 1, hi⟩).pos := by
  intro fuel
  induction fuel with
  | zero =>
    intro l j hf _ i hi hji
    omega
  | succ fuel ih =>
    intro l j hf hnil i hi hji
    rw [split_pass] at hnil
    by_cases h : j + 1 < l.length
    · rw [dif_pos h] at hnil
      by_cases hpos : (l.get ⟨j, by omega⟩).pos = (l.get ⟨j + 1, h⟩).pos
      · rw [if_pos hpos] at hnil
        simp at hnil
      · rw [if_neg hpos] at hnil
        rcases Nat.eq_or_lt_of_le hji with rfl | hlt
        · exact hpos
        · exact ih l (j + 1) (by omega) hnil i hi (by omega)
    · omega

/-- A set with no adjacent equal-position pair passes `split_pass`
untouched. -/
theorem split_pass_of_no_adj :
    ∀ fuel (l : List Variant) (j : Nat),
      (∀ i (hi : i + 1 < l.length),
        (l.get ⟨i, by omega⟩).pos ≠ (l.get ⟨i + 1, hi⟩).pos) →
      split_pass fuel l j = (l, []) := by
  intro fuel
  induction fuel with
  | zero => intro l j _; rfl
  | succ fuel ih =>
    intro l j hne
    rw [split_pass]
    by_cases h : j + 1 < l.length
    · rw [dif_pos h, if_neg (hne j h)]
      exact ih l (j + 1) hne
    · rw [dif_neg h]

theorem join_eq_nil_all {α : Type} :
    ∀ L : List (List α), L.join = [] → ∀ l ∈ L, l = [] := by
  intro L
  induction L with
  | nil => intro _ l hl; cases hl
  | cons a t ih =>
    intro hj l hl
    have hj' : a ++ t.join = [] := hj
    rcases List.append_eq_nil.1 hj' with ⟨ha, ht⟩
    rcases List.mem_cons.1 hl with rfl | hl'
    · exact ha
    · exact ih ht l hl'

/-- A pass that raises no flag changes nothing (so the final pass of the C
`while` loop is a no-op). -/
theorem split_round_flag_false {sets : List (List Variant)}
    (h : (split_round sets).2 = false) : (split_round sets).1 = sets := by
  simp only [split_round, Bool.not_eq_eq_eq_not, Bool.not_false,
    List.isEmpty_iff] at h
  have hall := join_eq_nil_all _ h
  simp only [split_round]
  rw [h, List.append_nil, List.map_map]
  have hcongr : ∀ s ∈ sets,
      ((Prod.fst ∘ fun s => if s.length = 1 then (s, ([] : List (List Variant)))
        else split_pass s.length s 0) s) = id s := by
    intro s hs
    by_cases h1 : s.length = 1
    · simp [h1]
    · simp only [Function.comp_apply, if_neg h1, id]
      apply split_pass_no_dup_id
      have hmem := hall ((fun s => if s.length = 1 then
          (s, ([] : List (List Variant)))
        else split_pass s.length s 0) s).2 (by
          simp only [List.map_map, List.mem_map]
          exact ⟨s, hs, rfl⟩)
      simp only [if_neg h1] at hmem
      exact hmem
  rw [List.map_congr_left hcongr, List.map_id]

/-- Every set surviving a pass (modified or duplicated) keeps the
consecutive-pair invariant. -/
theorem split_round_chain {d : Int} {sets : List (List Variant)}
    (h : ∀ S ∈ sets, S.Chain' (chainR d)) :
    ∀ S ∈ (split_round sets).1, S.Chain' (chainR d) := by
  intro S hS
  simp only [split_round, List.map_map, List.mem_append, List.mem_map,
    List.mem_join, Function.comp_apply] at hS
  rcases hS with ⟨s, hs, rfl⟩ | ⟨ds, ⟨s, hs, rfl⟩, hSds⟩
  · by_cases h1 : s.length = 1
    · rw [if_pos h1]
      exact h s hs
    · rw [if_neg h1]
      exact (split_pass_chain d s.length s 0 (h s hs)).1
  · by_cases h1 : s.length = 1
    · rw [if_pos h1] at hSds
      exact absurd hSds (by simp)
    · rw [if_neg h1] at hSds
      exact (split_pass_chain d s.length s 0 (h s hs)).2 S hSds

theorem split_rounds_chain {d : Int} :
    ∀ k (sets : List (List Variant)),
      (∀ S ∈ sets, S.Chain' (chainR d)) →
      ∀ S ∈ split_rounds k sets, S.Chain' (chainR d) := by
  intro k
  induction k with
  | zero => intro sets h; exact h
  | succ k ih =>
    intro sets h
    exact ih (split_round sets).1 (split_round_chain h)

theorem group_take_append (d : Int) :
    ∀ (l : List Variant) (prev : Variant),
      (group_take d prev l).1 ++ (group_take d prev l).2 = l := by
  intro l
  induction l with
  | nil => intro prev; rfl
  | cons v rest ih =>
    intro prev
    rw [group_take]
    by_cases hc : 0 < d ∧ v.chr = prev.chr ∧ |v.pos - prev.pos| ≤ d
    · simp only [if_pos hc, List.cons_append, ih v]
    · simp only [if_neg hc, List.nil_append]

/-- The set grown from `prev` by `group_take` satisfies the
consecutive-pair invariant, provided the input list was sorted. -/
theorem group_take_chain (d : Int) :
    ∀ (l : List Variant) (prev : Variant),
      (prev :: l).Chain' (fun a b => a.chr = b.chr → a.pos ≤ b.pos) →
      (prev :: (group_take d prev l).1).Chain' (chainR d) := by
  intro l
  induction l with
  | nil => intro prev _; simp [group_take]
  | cons v rest ih =>
    intro prev hs
    rw [List.chain'_cons] at hs
    rw [group_take]
    by_cases hc : 0 < d ∧ v.chr = prev.chr ∧ |v.pos - prev.pos| ≤ d
    · simp only [if_pos hc]
      rw [List.chain'_cons]
      exact ⟨⟨hc.2.1.symm, hc.2.2, hs.1 hc.2.1.symm⟩, ih v hs.2⟩
    · simp only [if_neg hc]
      simp

theorem chain'_suffix_of_append {α : Type} {R : α → α → Prop}
    {l1 l2 : List α} (h : (l1 ++ l2).Chain' R) : l2.Chain' R :=
  (List.chain'_append.1 h).2.1

/-- Every set produced by the grouping walk satisfies the consecutive-pair
invariant. -/
theorem group_sets_go_chain (d : Int) :
    ∀ fuel (l : List Variant), vcf_sorted l →
      ∀ S ∈ group_sets_go d fuel l, S.Chain' (chainR d) := by
  intro fuel
  induction fuel with
  | zero => intro l _ S hS; cases hS
  | succ fuel ih =>
    intro l hsort S hS
    cases l with
    | nil => cases hS
    | cons v rest =>
      rw [group_sets_go] at hS
      rcases List.mem_cons.1 hS with rfl | hS2
      · exact group_take_chain d rest v hsort
      · have hrest : rest.Chain'
            (fun a b => a.chr = b.chr → a.pos ≤ b.pos) :=
          (List.chain'_cons'.1 hsort).2
        have hsuffix : (group_take d v rest).2.Chain'
            (fun a b => a.chr = b.chr → a.pos ≤ b.pos) := by
          have := group_take_append d rest v
          exact chain'_suffix_of_append (this ▸ hrest)
        exact ih (group_take d v rest).2 hsuffix S hS2

/-- The grouping walk partitions the input: the concatenation of the sets
is the original list. -/
theorem group_sets_go_join (d : Int) :
    ∀ fuel (l : List Variant), l.length ≤ fuel →
      (group_sets_go d fuel l).join = l := by
  intro fuel
  induction fuel with
  | zero =>
    intro l hl
    have hnil : l = [] := List.length_eq_zero.1 (by omega)
    subst hnil
    rfl
  | succ fuel ih =>
    intro l hl
    cases l with
    | nil => rfl
    | cons v rest =>
      rw [group_sets_go]
      have happ := group_take_append d rest v
      have hlen : (group_take d v rest).2.length ≤ fuel := by
        have : (group_take d v rest).1.length +
            (group_take d v rest).2.length = rest.length := by
          rw [← List.length_append, happ]
        simp only [List.length_cons] at hl
        omega
      have : ((v :: (group_take d v rest).1) ::
          group_sets_go d fuel (group_take d v rest).2).join =
          v :: ((group_take d v rest).1 ++
            (group_sets_go d fuel (group_take d v rest).2).join) := rfl
      rw [this, ih _ hlen, happ]

/-- With `distlim = 0` the extension condition is never true: every set is
a singleton. -/
theorem group_sets_go_distlim_zero :
    ∀ fuel (l : List Variant) (S : List Variant),
      S ∈ group_sets_go 0 fuel l → S.length = 1 := by
  intro fuel
  induction fuel with
  | zero => intro l S hS; cases hS
  | succ fuel ih =>
    intro l S hS
    cases l with
    | nil => cases hS
    | cons v rest =>
      rw [group_sets_go] at hS
      have htake : group_take 0 v rest = ([], rest) := by
        cases rest with
        | nil => rfl
        | cons w r =>
          rw [group_take, if_neg]
          intro hc
          exact absurd hc.1 (by omega)
      rcases List.mem_cons.1 hS with rfl | hS2
      · rw [htake]
        rfl
      · rw [htake] at hS2
        exact ih rest S hS2

/-- Sets that are all singletons pass `split_round` unchanged and raise no
flag. -/
theorem split_round_singletons {sets : List (List Variant)}
    (h : ∀ S ∈ sets, S.length = 1) : split_round sets = (sets, false) := by
  simp only [split_round]
  have hmap : sets.map (fun s => if s.length = 1 then
      (s, ([] : List (List Variant))) else split_pass s.length s 0) =
      sets.map (fun s => (s, [])) :=
    List.map_congr_left (fun s hs => by rw [if_pos (h s hs)])
  rw [hmap, List.map_map, List.map_map]
  have h1 : sets.map (Prod.fst ∘ fun s => (s, ([] : List (List Variant)))) =
      sets := by
    rw [show (Prod.fst ∘ fun s : List Variant => (s, ([] : List (List Variant))))
      = id from rfl, List.map_id]
  have h2 : sets.map (Prod.snd ∘ fun s : List Variant =>
      (s, ([] : List (List Variant)))) =
      sets.map (fun _ => ([] : List (List Variant))) := rfl
  rw [h1, h2]
  cases sets with
  | nil => rfl
  | cons a t =>
    simp [List.join_eq_nil_iff]

/-- From a flagless pass, extract that each non-singleton set's scan
produced no duplicate. -/
theorem split_round_flag_false_passes {sets : List (List Variant)}
    (h : (split_round sets).2 = false) :
    ∀ s ∈ sets, s.length ≠ 1 → (split_pass s.length s 0).2 = [] := by
  simp only [split_round, Bool.not_eq_eq_eq_not, Bool.not_false,
    List.isEmpty_iff] at h
  intro s hs h1
  have hmem := join_eq_nil_all _ h
    ((fun s => if s.length = 1 then (s, ([] : List (List Variant)))
      else split_pass s.length s 0) s).2 (by
        simp only [List.map_map, List.mem_map]
        exact ⟨s, hs, rfl⟩)
  simp only [if_neg h1] at hmem
  exact hmem

theorem chain'_and {α : Type} {R S : α → α → Prop} {l : List α}
    (hR : l.Chain' R) (hS : l.Chain' S) :
    l.Chain' (fun a b => R a b ∧ S a b) := by
  rw [List.chain'_iff_get] at hR hS ⊢
  intro i hi
  exact ⟨hR i hi, hS i hi⟩

/-- At a fixed point of the splitting loop, within each set all positions
are pairwise distinct (sets are position-sorted, and no adjacent pair is
equal). -/
theorem fixpoint_no_same_pos {d : Int} {sets : List (List Variant)}
    (hchain : ∀ S ∈ sets, S.Chain' (chainR d))
    (hflag : (split_round sets).2 = false) :
    ∀ S ∈ sets, S.Pairwise (fun a b => a.pos ≠ b.pos) := by
  intro S hS
  have hadj : ∀ i (hi : i + 1 < S.length),
      (S.get ⟨i, by omega⟩).pos ≠ (S.get ⟨i + 1, hi⟩).pos := by
    by_cases h1 : S.length = 1
    · intro i hi; omega
    · intro i hi
      exact split_pass_no_dup_adj S.length S 0 (by omega)
        (split_round_flag_false_passes hflag S hS h1) i hi (by omega)
  have hlt : S.Chain' (fun a b => a.pos < b.pos) := by
    rw [List.chain'_iff_get]
    intro i hi
    have hc := (List.chain'_iff_get.1 (hchain S hS)) i hi
    have hne := hadj i (by omega)
    have hle := hc.2.2
    omega
  haveI : IsTrans Variant (fun a b => a.pos < b.pos) :=
    ⟨fun a b c h1 h2 => lt_trans h1 h2⟩
  exact (List.chain'_iff_pairwise.1 hlt).imp (fun h => ne_of_lt h)

/-- All-singleton states are fixed by every number of passes. -/
theorem split_rounds_singletons {sets : List (List Variant)}
    (h : ∀ S ∈ sets, S.length = 1) :
    ∀ k, split_rounds k sets = sets := by
  intro k
  induction k with
  | zero => rfl
  | succ k ih =>
    rw [split_rounds, split_round_singletons h]
    exact ih

/-- A state in which no set has an adjacent equal-position pair passes a
round unchanged and flagless. -/
theorem split_round_of_no_adj {sets : List (List Variant)}
    (h : ∀ S ∈ sets, ∀ i (hi : i + 1 < S.length),
      (S.get ⟨i, by omega⟩).pos ≠ (S.get ⟨i + 1, hi⟩).pos) :
    split_round sets = (sets, false) := by
  simp only [split_round]
  have hmap : sets.map (fun s => if s.length = 1 then
      (s, ([] : List (List Variant))) else split_pass s.length s 0) =
      sets.map (fun s => (s, [])) := by
    apply List.map_congr_left
    intro s hs
    by_cases h1 : s.length = 1
    · rw [if_pos h1]
    · rw [if_neg h1]
      exact split_pass_of_no_adj s.length s 0 (h s hs)
  rw [hmap, List.map_map, List.map_map]
  have h1 : sets.map (Prod.fst ∘ fun s : List Variant =>
      (s, ([] : List (List Variant)))) = sets := by
    rw [show (Prod.fst ∘ fun s : List Variant => (s, ([] : List (List Variant))))
      = id from rfl, List.map_id]
  have h2 : sets.map (Prod.snd ∘ fun s : List Variant =>
      (s, ([] : List (List Variant)))) =
      sets.map (fun _ => ([] : List (List Variant))) := rfl
  rw [h1, h2]
  cases sets with
  | nil => rfl
  | cons a t =>
    simp [List.join_eq_nil_iff]

theorem split_rounds_of_no_adj {sets : List (List Variant)}
    (h : ∀ S ∈ sets, ∀ i (hi : i + 1 < S.length),
      (S.get ⟨i, by omega⟩).pos ≠ (S.get ⟨i + 1, hi⟩).pos) :
    ∀ k, split_rounds k sets = sets := by
  intro k
  induction k with
  | zero => rfl
  | succ k ih =>
    rw [split_rounds, split_round_of_no_adj h]
    exact ih

theorem chain'_of_join {α : Type} {R : α → α → Prop} :
    ∀ L : List (List α), L.join.Chain' R → ∀ S ∈ L, S.Chain' R := by
  intro L
  induction L with
  | nil => intro _ S hS; cases hS
  | cons a t ih =>
    intro hj S hS
    have hj' : (a ++ t.join).Chain' R := hj
    rcases List.mem_cons.1 hS with rfl | hS2
    · exact (List.chain'_append.1 hj').1
    · exact ih (List.chain'_append.1 hj').2.1 S hS2

/-! ### Reads (`fetch_reads`, eagle.c lines 455-515)

`qual` is Phred divided by −10 (line 481); `flag` is the comma-delimited
token string of `bam_flag2str`, modelled as the token list; `multimap` is
the optional XA auxiliary tag, modelled as the list of `(chr, signed pos)`
pairs that the `sscanf` loop of line 774 extracts from the raw
`Zchr,±pos,cigar,NM;…` string. -/
structure Read where
  name : String
  chr : String
  tid : Int
  pos : Int
  length : Nat
  qseq : List Char
  qual : List ℝ
  flag : List String
  inferred_length : Int
  multimap : Option (List (String × Int))

def variant0 : Variant := Variant.mk "" 0 "" ""

/-- Flag-token scan of eagle.c lines 713-723. -/
def read_unmap (r : Read) : Bool := r.flag.contains "UNMAP"

def read_reverse (r : Read) : Bool := r.flag.contains "REVERSE"

def read_secondary (r : Read) : Bool :=
  r.flag.contains "SECONDARY" || r.flag.contains "SUPPLEMENTARY"

/-- Skip conditions of eagle.c lines 724-725: unmapped reads always, and
secondary/supplementary reads when `pao` is set. -/
def read_kept (pao : Bool) (r : Read) : Bool :=
  !read_unmap r && !(pao && read_secondary r)

/-! ### Per-read model (eagle.c lines 727-757) -/

/-- `qual[i]`, with an exact 0 replaced by −0.01 (line 730). -/
noncomputable def read_q (r : Read) (i : Nat) : ℝ :=
  let q := r.qual.getD i 0
  if q = 0 then (-0.01 : ℝ) else q

/-- `is_match[i] = log(1 - exp(qual[i] * ln 10))` (line 732). -/
noncomputable def read_is_match (r : Read) (i : Nat) : ℝ :=
  Real.log (1 - Real.exp (read_q r i * M_1_LOG10E))

/-- `no_match[i] = qual[i] * ln 10 - log 3` (line 733). -/
noncomputable def read_no_match (r : Read) (i : Nat) : ℝ :=
  read_q r i * M_1_LOG10E - LG3

noncomputable def read_prob_matrix (r : Read) : Nat → Nat → ℝ :=
  set_prob_matrix r.qseq (read_is_match r) (read_no_match r)

/-- The reversed-complement probability matrix used for XA entries on the
opposite strand (eagle.c lines 783-792): reverse-complement the query and
reverse both per-base vectors. -/
noncomputable def read_rev_matrix (r : Read) : Nat → Nat → ℝ :=
  set_prob_matrix (reverse_compl r.qseq)
    (fun i => read_is_match r (r.length - 1 - i))
    (fun i => read_no_match r (r.length - 1 - i))

/-- The "elsewhere" probability (eagle.c lines 748-751): perfect-match mass
plus the single-mismatch shell, length-corrected by `ALPHA`. -/
noncomputable def read_elsewhere (r : Read) : ℝ :=
  let a := ((List.range r.length).map (read_is_match r)).sum
  let delta := (List.range r.length).map
    (fun i => read_no_match r i - read_is_match r i)
  log_add_exp a (a + log_sum_exp delta) -
    LGALPHA * (((r.length : Int) - r.inferred_length : Int) : ℝ)

/-- Whether an XA entry with signed position `xp` lies on the strand
opposite to the primary alignment (eagle.c line 783). -/
def xa_flip (r : Read) (xp : Int) : Prop :=
  (xp < 0 ∧ read_reverse r = false) ∨ (0 < xp ∧ read_reverse r = true)

instance (r : Read) (xp : Int) : Decidable (xa_flip r xp) := by
  unfold xa_flip; infer_instance

/-- Cached `pout[readi]` after the first-combination pass: `elsewhere`,
folded once more per XA entry (eagle.c line 797). -/
noncomputable def read_pout (pao : Bool) (r : Read) : ℝ :=
  let elsewhere := read_elsewhere r
  if pao then elsewhere
  else
    match r.multimap with
    | none => elsewhere
    | some xs => xs.foldl (fun pout _ => log_add_exp pout elsewhere) elsewhere

/-- Cached `prgu[readi]` after the first-combination pass but before the
elsewhere mixture: reference likelihood at the primary position, folded
with each XA entry probability (eagle.c lines 754, 795, 798). -/
noncomputable def read_prgu (pao : Bool) (fetch : String → List Char)
    (refseq : List Char) (r : Read) : ℝ :=
  let base := calc_prob_distrib (read_prob_matrix r) r.length refseq r.pos
  if pao then base
  else
    match r.multimap with
    | none => base
    | some xs =>
      xs.foldl (fun prgu e =>
        let mat := if xa_flip r e.2 then read_rev_matrix r
          else read_prob_matrix r
        let rp := calc_prob_distrib mat r.length (fetch e.1) (|e.2| - 1)
        log_add_exp prgu rp) base

/-- Cached `prgu[readi]` after the elsewhere mixture of eagle.c line 810. -/
noncomputable def read_prgu_mixed (pao : Bool) (fetch : String → List Char)
    (refseq : List Char) (r : Read) : ℝ :=
  log_add_exp (LGOMEGA - LG1_OMEGA + read_pout pao r)
    (read_prgu pao fetch refseq r)

/-- Per-combination `prgv` (eagle.c lines 757, 770-811): likelihood against
the alternative sequence, folded over XA entries — recomputed against the
alternative sequence when the entry is on the same chromosome within 50
bases of the combination's first variant (line 801-802) — then mixed with
the elsewhere mass (line 811). -/
noncomputable def read_prgv (pao : Bool) (fetch : String → List Char)
    (altseq : List Char) (v0pos : Int) (r : Read) : ℝ :=
  let base := calc_prob_distrib (read_prob_matrix r) r.length altseq r.pos
  let after_xa :=
    if pao then base
    else
      match r.multimap with
      | none => base
      | some xs =>
        xs.foldl (fun prgv e =>
          let mat := if xa_flip r e.2 then read_rev_matrix r
            else read_prob_matrix r
          let xp := |e.2| - 1
          let rp := calc_prob_distrib mat r.length (fetch e.1) xp
          let rp2 := if e.1 = r.chr ∧ |xp - v0pos| < 50 then
            calc_prob_distrib mat r.length altseq xp else rp
          log_add_exp prgv rp2) base
  log_add_exp (LGOMEGA - LG1_OMEGA + read_pout pao r) after_xa

/-- Best-of-three heterozygous mixture (eagle.c lines 814-818). -/
noncomputable def read_phet (prgv prgu : ℝ) : ℝ :=
  let phet := log_add_exp (LG50 + prgv) (LG50 + prgu)
  let phet10 := log_add_exp (LG10 + prgv) (LG90 + prgu)
  let phet90 := log_add_exp (LG90 + prgv) (LG10 + prgu)
  let p1 := if phet < phet10 then phet10 else phet
  if p1 < phet90 then phet90 else p1

/-! ### Evaluator (`evaluate_variants`, eagle.c lines 644-872) -/

/-- Per-combination accumulators (eagle.c lines 697-705). -/
structure ComboAcc where
  alt : ℝ
  het : ℝ
  ref_count : Nat
  alt_count : Nat

/-- The read loop of one combination (eagle.c lines 712-832).  The
reference-probability and elsewhere caches filled during the first
combination are pure functions of the read, so every combination pass uses
them through `read_prgu_mixed` and `read_pout`. -/
noncomputable def eval_combo (pao : Bool) (fetch : String → List Char)
    (refseq : List Char) (reads : List Read) (alt_prior het_prior : ℝ)
    (combo : List Variant) : ComboAcc :=
  let altseq := construct_altseq refseq combo
  let v0pos := (combo.headD variant0).pos
  reads.foldl (fun acc r =>
    if read_kept pao r then
      let prgu := read_prgu_mixed pao fetch refseq r
      let prgv := read_prgv pao fetch altseq v0pos r
      let phet := read_phet prgv prgu
      if prgv > prgu ∧ prgv - prgu > (0.69 : ℝ) then
        ComboAcc.mk (acc.alt + (prgv + alt_prior)) (acc.het + (phet + het_prior))
          acc.ref_count (acc.alt_count + 1)
      else if prgu > prgv ∧ prgu - prgv > (0.69 : ℝ) then
        ComboAcc.mk (acc.alt + (prgv + alt_prior)) (acc.het + (phet + het_prior))
          (acc.ref_count + 1) acc.alt_count
      else
        ComboAcc.mk (acc.alt + (prgv + alt_prior)) (acc.het + (phet + het_prior))
          acc.ref_count acc.alt_count
    else acc) (ComboAcc.mk 0 0 0 0)

/-- The `ref` accumulator (eagle.c line 825), computed during the first
combination: `Σ (prgu[readi] + REFPRIOR)` over kept reads. -/
noncomputable def eval_ref (pao : Bool) (fetch : String → List Char)
    (refseq : List Char) (reads : List Read) : ℝ :=
  reads.foldl (fun acc r =>
    if read_kept pao r then
      acc + (read_prgu_mixed pao fetch refseq r + REFPRIOR)
    else acc) 0

/-- Priors (eagle.c lines 687-695). -/
noncomputable def alt_het_priors (nvariants : Nat) (mvh : Bool)
    (hetbias : ℝ) (ncombos : Nat) : ℝ × ℝ :=
  if nvariants = 1 ∨ mvh = true then
    (Real.log ((0.5 : ℝ) * (1 - hetbias)), Real.log ((0.5 : ℝ) * hetbias))
  else
    (Real.log ((0.5 : ℝ) * (1 - hetbias) / ncombos),
      Real.log ((0.5 : ℝ) * hetbias / ncombos))

/-- The variant combinations of eagle.c lines 664-677: `powerset` emits
index tuples (as a delimited string there) which are then resolved against
the set's variants.  The enumeration does not depend on `mvh`. -/
def var_combos (vars : List Variant) (maxh : Nat) : List (List Variant) :=
  (powerset vars.length maxh).map (fun c => c.map (fun i => vars.getD i variant0))

/-- One output line of `print_variant` (eagle.c lines 612-642): the
set descriptor is printed only when the set has more than one variant. -/
structure OutLine where
  chr : String
  pos : Int
  ref : String
  alt : String
  read_count : Nat
  has_alt_count : Nat
  prob : ℝ
  odds : ℝ
  set_desc : List Variant

/-- The per-variant marginalization fold (eagle.c lines 853-865): running
`has_alt` (0 used as an "empty" sentinel), `not_alt` (seeded with `ref`)
and `has_alt_count`, driven by `find_variant` membership. -/
noncomputable def margin_fold (v : Variant) (ref : ℝ)
    (pairs : List (List Variant × ComboAcc)) : ℝ × ℝ × Nat :=
  pairs.foldl (fun state p =>
    if find_variant p.1 v ≠ -1 then
      ((if state.1 = 0 then log_add_exp p.2.alt p.2.het
        else log_add_exp state.1 (log_add_exp p.2.alt p.2.het)),
        state.2.1,
        (if state.2.2 < p.2.alt_count then p.2.alt_count else state.2.2))
    else
      (state.1, log_add_exp state.2.1 (log_add_exp p.2.alt p.2.het),
        state.2.2)) ((0 : ℝ), ref, (0 : Nat))

/-- `evaluate_variants` (eagle.c line 644) for one hypothesis set.
`fetch` models `fetch_refseq` (the contig cache) and `reads` the records
returned by `fetch_reads` for the set's spanning region; `none` models the
`NULL` return for an empty region (line 657).  `total` is overwritten on
every iteration of the loop at line 844 and therefore retains the value of
the *last* combination. -/
noncomputable def evaluate_variants (pao mvh : Bool) (maxh : Nat)
    (hetbias : ℝ) (fetch : String → List Char) (reads : List Read)
    (vars : List Variant) : Option (List OutLine) :=
  if reads.isEmpty then none
  else
    let refseq := fetch ((vars.headD variant0).chr)
    let combos := var_combos vars maxh
    let ncombos := combos.length
    let priors := alt_het_priors vars.length mvh hetbias ncombos
    let accs := combos.map (eval_combo pao fetch refseq reads priors.1 priors.2)
    let ref := eval_ref pao fetch refseq reads
    let total := accs.foldl
      (fun _t a => log_add_exp ref (log_add_exp a.alt a.het)) ref
    let max_ref := accs.foldl
      (fun m a => if m < a.ref_count then a.ref_count else m) 0
    let max_alt := accs.foldl
      (fun m a => if m < a.alt_count then a.alt_count else m) 0
    let read_count := max_ref + max_alt
    some (vars.map (fun v =>
      let st := margin_fold v ref (combos.zip accs)
      OutLine.mk v.chr v.pos v.ref v.alt read_count st.2.2
        ((st.1 - total) * M_1_LN10) ((st.1 - st.2.1) * M_1_LN10)
        (if 1 < vars.length then vars else [])))

/-- The data lines of `process_variants` (eagle.c lines 908-980) before the
final natural sort: grouping, `k` passes of same-position splitting, then
one evaluation per hypothesis set, each contributing one line per variant
of the set (or none when its region has no reads).  The final sort permutes
lines but does not change how many lines a variant receives. -/
noncomputable def process_output (pao mvh : Bool) (maxh : Nat) (hetbias : ℝ)
    (fetch : String → List Char) (fetch_reads : List Variant → List Read)
    (distlim : Int) (k : Nat) (l : List Variant) : List OutLine :=
  ((split_rounds k (group_sets distlim l)).map (fun S =>
    (evaluate_variants pao mvh maxh hetbias fetch (fetch_reads S) S).getD []))
    |>.join

/-- The variant named by an output line. -/
def line_variant (o : OutLine) : Variant := Variant.mk o.chr o.pos o.ref o.alt

theorem line_variant_mk (v : Variant) (rc hc : Nat) (pr od : ℝ)
    (sd : List Variant) :
    line_variant (OutLine.mk v.chr v.pos v.ref v.alt rc hc pr od sd) = v := by
  cases v
  rfl

/-- With a non-empty read set, `evaluate_variants` emits exactly one line
per variant of the set, in set order. -/
theorem evaluate_variants_lines_map (pao mvh : Bool) (maxh : Nat)
    (hetbias : ℝ) (fetch : String → List Char) (reads : List Read)
    (vars : List Variant) (h : reads ≠ []) :
    ((evaluate_variants pao mvh maxh hetbias fetch reads vars).getD
      []).map line_variant = vars := by
  have hne : reads.isEmpty = false := by
    cases reads with
    | nil => exact absurd rfl h
    | cons a t => rfl
  simp only [evaluate_variants, hne, Bool.false_eq_true, if_false,
    Option.getD_some, List.map_map]
  conv_rhs => rw [← List.map_id vars]
  apply List.map_congr_left
  intro v _
  exact line_variant_mk v _ _ _ _ _

/-- Strictly sorted input (distinct positions per chromosome): the grouped
sets have no adjacent equal-position pair, so splitting is the identity. -/
theorem group_sets_no_adj (d : Int) (l : List Variant)
    (hsort : l.Chain' (fun a b => a.chr = b.chr → a.pos < b.pos)) :
    ∀ S ∈ group_sets d l, ∀ i (hi : i + 1 < S.length),
      (S.get ⟨i, by omega⟩).pos ≠ (S.get ⟨i + 1, hi⟩).pos := by
  intro S hS i hi
  have hjoin : (group_sets d l).join = l :=
    group_sets_go_join d l.length l le_rfl
  have hstrict : S.Chain' (fun a b => a.chr = b.chr → a.pos < b.pos) :=
    chain'_of_join _ (by rw [hjoin]; exact hsort) S hS
  have hsort2 : vcf_sorted l :=
    hsort.imp (fun a b hab hc => le_of_lt (hab hc))
  have hchain : S.Chain' (chainR d) :=
    group_sets_go_chain d l.length l hsort2 S hS
  have h1 := (List.chain'_iff_get.1 hstrict) i (by omega)
  have h2 := (List.chain'_iff_get.1 hchain) i (by omega)
  have := h1 h2.1
  omega

/-- Under a strictly sorted input and non-empty read fetches, the emitted
data lines are exactly the input variants (one line each, in grouped
order). -/
theorem process_output_one_line_each (pao mvh : Bool) (maxh : Nat)
    (hetbias : ℝ) (fetch : String → List Char)
    (fetch_reads : List Variant → List Read) (d : Int) (k : Nat)
    (l : List Variant)
    (hsort : l.Chain' (fun a b => a.chr = b.chr → a.pos < b.pos))
    (hreads : ∀ S, fetch_reads S ≠ []) :
    (process_output pao mvh maxh hetbias fetch fetch_reads d k
      l).map line_variant = l := by
  unfold process_output
  rw [split_rounds_of_no_adj (group_sets_no_adj d l hsort) k]
  rw [List.map_join, List.map_map]
  have hmap : (group_sets d l).map (List.map line_variant ∘ fun S =>
      (evaluate_variants pao mvh maxh hetbias fetch (fetch_reads S) S).getD
        []) = (group_sets d l).map id := by
    apply List.map_congr_left
    intro S _
    exact evaluate_variants_lines_map pao mvh maxh hetbias fetch
      (fetch_reads S) S (hreads S)
  rw [hmap, List.map_id]
  exact group_sets_go_join d l.length l le_rfl

/-- The `has_alt_count` component of the marginalization fold is bounded by
the running maximum of `alt_count` over *all* combinations. -/
theorem margin_fold_count_le (v : Variant) :
    ∀ (pairs : List (List Variant × ComboAcc)) (s : ℝ × ℝ × Nat) (m : Nat),
      s.2.2 ≤ m →
      (pairs.foldl (fun state p =>
        if find_variant p.1 v ≠ -1 then
          ((if state.1 = 0 then log_add_exp p.2.alt p.2.het
            else log_add_exp state.1 (log_add_exp p.2.alt p.2.het)),
            state.2.1,
            (if state.2.2 < p.2.alt_count then p.2.alt_count else state.2.2))
        else
          (state.1, log_add_exp state.2.1 (log_add_exp p.2.alt p.2.het),
            state.2.2)) s).2.2 ≤
      (pairs.map Prod.snd).foldl
        (fun m a => if m < a.alt_count then a.alt_count else m) m := by
  intro pairs
  induction pairs with
  | nil => intro s m hsm; exact hsm
  | cons p t ih =>
    intro s m hsm
    simp only [List.foldl_cons, List.map_cons]
    by_cases hmem : find_variant p.1 v ≠ -1
    · rw [if_pos hmem]
      apply ih
      simp only []
      by_cases h1 : s.2.2 < p.2.alt_count
      · rw [if_pos h1]
        by_cases h2 : m < p.2.alt_count
        · rw [if_pos h2]
        · rw [if_neg h2]; omega
      · rw [if_neg h1]
        by_cases h2 : m < p.2.alt_count
        · rw [if_pos h2]; omega
        · rw [if_neg h2]; omega
    · rw [if_neg hmem]
      apply ih
      simp only []
      by_cases h2 : m < p.2.alt_count
      · rw [if_pos h2]; omega
      · rw [if_neg h2]; omega

/-- `0 ≤ has_alt_count ≤ read_count` holds on every emitted line. -/
theorem evaluate_variants_count_bounds (pao mvh : Bool) (maxh : Nat)
    (hetbias : ℝ) (fetch : String → List Char) (reads : List Read)
    (vars : List Variant) (lines : List OutLine)
    (h : evaluate_variants pao mvh maxh hetbias fetch reads vars = some lines) :
    ∀ o ∈ lines, o.has_alt_count ≤ o.read_count := by
  by_cases hne : reads.isEmpty
  · simp [evaluate_variants, hne] at h
  · simp only [evaluate_variants, hne, Bool.false_eq_true, if_false,
      Option.some.injEq] at h
    subst h
    intro o ho
    simp only [List.mem_map] at ho
    obtain ⟨v, _, rfl⟩ := ho
    simp only []
    set combos := var_combos vars maxh with hcombos
    set accs := combos.map (eval_combo pao fetch
      (fetch ((vars.headD variant0).chr)) reads
      (alt_het_priors vars.length mvh hetbias combos.length).1
      (alt_het_priors vars.length mvh hetbias combos.length).2) with haccs
    have hlen : accs.length ≤ combos.length := by rw [haccs]; simp
    have hsnd : (combos.zip accs).map Prod.snd = accs :=
      List.map_snd_zip combos accs hlen
    have hb := margin_fold_count_le v (combos.zip accs)
      ((0 : ℝ), eval_ref pao fetch (fetch ((vars.headD variant0).chr)) reads,
        (0 : Nat)) 0 (le_refl 0)
    rw [hsnd] at hb
    unfold margin_fold
    omega

theorem le_log_add_exp_right (a b : ℝ) : b ≤ log_add_exp a b := by
  rw [log_add_exp_comm]
  exact le_log_add_exp_left b a

theorem M_1_LN10_nonneg : 0 ≤ M_1_LN10 := by
  unfold M_1_LN10
  have h10 : (0 : ℝ) < Real.log 10 := Real.log_pos (by norm_num)
  exact le_of_lt (one_div_pos.mpr h10)

theorem find_variant_singleton (v : Variant) : find_variant [v] v = 0 := by
  simp [find_variant, find_variant_go]

/-- For a singleton hypothesis set the single combination `{v}` is both the
only `has_alt` contributor and the final combination retained in `total`,
so `prob ≤ 0` on the emitted line. -/
theorem evaluate_singleton_prob_nonpos (pao mvh : Bool) (maxh : Nat)
    (hetbias : ℝ) (fetch : String → List Char) (reads : List Read)
    (v : Variant) (lines : List OutLine)
    (h : evaluate_variants pao mvh maxh hetbias fetch reads [v] =
      some lines) :
    ∀ o ∈ lines, o.prob ≤ 0 := by
  by_cases hne : reads.isEmpty
  · simp [evaluate_variants, hne] at h
  · simp only [evaluate_variants, hne, Bool.false_eq_true, if_false,
      Option.some.injEq] at h
    subst h
    intro o ho
    simp only [List.map_cons, List.map_nil, List.mem_singleton] at ho
    subst ho
    have hcombos : var_combos [v] maxh = [[v]] := rfl
    simp only [hcombos]
    have hfv : ¬ (find_variant [v] v = -1) := by
      rw [find_variant_singleton]
      norm_num
    simp only [margin_fold, List.map_cons, List.map_nil, List.zip_cons_cons,
      List.zip_nil_right, List.foldl_cons, List.foldl_nil, ne_eq, hfv,
      not_false_eq_true, if_true, if_pos rfl]
    set acc := eval_combo pao fetch (fetch (([v].headD variant0).chr)) reads
      (alt_het_priors [v].length mvh hetbias [[v]].length).1
      (alt_het_priors [v].length mvh hetbias [[v]].length).2 [v] with hacc
    set ref := eval_ref pao fetch (fetch (([v].headD variant0).chr)) reads
      with href
    have h1 : log_add_exp acc.alt acc.het ≤
        log_add_exp ref (log_add_exp acc.alt acc.het) :=
      le_log_add_exp_right ref (log_add_exp acc.alt acc.het)
    have h2 := M_1_LN10_nonneg
    have h3 := mul_le_mul_of_nonneg_right (sub_nonpos.mpr h1) h2
    simpa using h3

/-! ### Noninterference of secondary/supplementary reads and XA tags under
`--pao` -/

/-- Erase the XA annotation of a read (all other fields unchanged). -/
def scrub_read (r : Read) : Read :=
  Read.mk r.name r.chr r.tid r.pos r.length r.qseq r.qual r.flag
    r.inferred_length none

/-- The information `--pao` is specified to depend on: the
non-secondary/supplementary reads, with XA annotations erased. -/
def scrub (reads : List Read) : List Read :=
  (reads.filter (fun r => !read_secondary r)).map scrub_read

theorem read_kept_true_of_secondary {r : Read}
    (h : read_secondary r = true) : read_kept true r = false := by
  simp [read_kept, h]

/-- A fold over the reads whose body skips secondary reads (under
`pao = true`) and ignores the XA annotation factors through `scrub`. -/
theorem foldl_scrub {β : Type} (body : β → Read → β)
    (hskip : ∀ (acc : β) r, read_secondary r = true → body acc r = acc)
    (hscr : ∀ (acc : β) r, body acc (scrub_read r) = body acc r) :
    ∀ (reads : List Read) (init : β),
      (scrub reads).foldl body init = reads.foldl body init := by
  intro reads
  induction reads with
  | nil => intro init; rfl
  | cons r t ih =>
    intro init
    by_cases hsec : read_secondary r = true
    · have hfil : scrub (r :: t) = scrub t := by
        simp [scrub, List.filter_cons, hsec]
      rw [hfil, List.foldl_cons, hskip init r hsec, ih]
    · have hsec2 : read_secondary r = false := by
        cases hb : read_secondary r
        · rfl
        · exact absurd hb hsec
      have hfil : scrub (r :: t) = scrub_read r :: scrub t := by
        simp [scrub, List.filter_cons, hsec2]
      rw [hfil, List.foldl_cons, List.foldl_cons, hscr init r, ih]

theorem eval_combo_scrub (fetch : String → List Char) (refseq : List Char)
    (p1 p2 : ℝ) (c : List Variant) (reads : List Read) :
    eval_combo true fetch refseq (scrub reads) p1 p2 c =
      eval_combo true fetch refseq reads p1 p2 c := by
  simp only [eval_combo]
  apply foldl_scrub
  · intro acc r hsec
    rw [read_kept_true_of_secondary hsec]
    simp
  · intro acc r
    rfl

theorem eval_ref_scrub (fetch : String → List Char) (refseq : List Char)
    (reads : List Read) :
    eval_ref true fetch refseq (scrub reads) =
      eval_ref true fetch refseq reads := by
  simp only [eval_ref]
  apply foldl_scrub
  · intro acc r hsec
    rw [read_kept_true_of_secondary hsec]
    simp
  · intro acc r
    rfl

/-- Noninterference under `--pao`, away from the empty-region check: two
read sets carrying the same primary (non-secondary, XA-stripped) content
and agreeing on emptiness produce identical evaluations. -/
theorem evaluate_variants_pao_noninterference (mvh : Bool) (maxh : Nat)
    (hetbias : ℝ) (fetch : String → List Char) (r1 r2 : List Read)
    (vars : List Variant) (hscrub : scrub r1 = scrub r2)
    (hempty : r1.isEmpty = r2.isEmpty) :
    evaluate_variants true mvh maxh hetbias fetch r1 vars =
      evaluate_variants true mvh maxh hetbias fetch r2 vars := by
  by_cases h1 : r1.isEmpty
  · have h2 : r2.isEmpty = true := by rw [← hempty]; exact h1
    simp [evaluate_variants, h1, h2]
  · have h2 : ¬ r2.isEmpty = true := by rw [← hempty]; exact h1
    have hcombo : eval_combo true fetch (fetch ((vars.headD variant0).chr)) r1 =
        eval_combo true fetch (fetch ((vars.headD variant0).chr)) r2 := by
      funext p1 p2 c
      rw [← eval_combo_scrub fetch _ p1 p2 c r1, hscrub,
        eval_combo_scrub fetch _ p1 p2 c r2]
    have href : eval_ref true fetch (fetch ((vars.headD variant0).chr)) r1 =
        eval_ref true fetch (fetch ((vars.headD variant0).chr)) r2 := by
      rw [← eval_ref_scrub fetch _ r1, hscrub, eval_ref_scrub fetch _ r2]
    simp only [evaluate_variants, h1, h2, Bool.false_eq_true, if_false,
      hcombo, href]

/-! ### AltBuilder properties -/

theorem construct_altseq_nil (refseq : List Char) :
    construct_altseq refseq [] = refseq := rfl

theorem overwrite_at_single (l : List Char) (q : Int) (a : Char)
    (hq : 0 ≤ q) : overwrite_at l q [a] = l.set q.toNat a := by
  rw [overwrite_at, if_pos hq, overwrite_at]

/-- A single SNP (both alleles one base, neither the `"-"` marker) changes
nothing but 0-based index `p − 1`, and preserves the length. -/
theorem construct_altseq_snp (refseq : List Char) (chr R A : String)
    (p : Int) (hA1 : A.data.length = 1) (hAR : A.data.length = R.data.length)
    (hRd : R.data.head? ≠ some '-') (hAd : A.data.head? ≠ some '-')
    (hp : 1 ≤ p) :
    (construct_altseq refseq [Variant.mk chr p R A]).length = refseq.length ∧
    ∀ (i : Nat) (d : Char), (i : Int) ≠ p - 1 →
      (construct_altseq refseq [Variant.mk chr p R A]).getD i d =
        refseq.getD i d := by
  obtain ⟨a, ha⟩ := List.length_eq_one.1 hA1
  have hres : construct_altseq refseq [Variant.mk chr p R A] =
      refseq.set (p - 1).toNat a := by
    unfold construct_altseq
    rw [List.foldl_cons, List.foldl_nil]
    simp only [construct_altseq_step, if_neg hRd, if_neg hAd]
    rw [if_pos (by omega : (A.data.length : Int) - R.data.length = 0)]
    simp only [ha]
    rw [show p - 1 + (0 : Int) = p - 1 from by omega,
      overwrite_at_single refseq (p - 1) a (by omega)]
  rw [hres]
  refine ⟨List.length_set refseq _ a ▸ rfl, ?_⟩
  intro i d hi
  have hne : (p - 1).toNat ≠ i := by omega
  rw [List.getD_eq_getElem?_getD, List.getD_eq_getElem?_getD,
    List.getElem?_set_ne hne]

/-- A pure insertion `(p, "-", I)` splices `I` between 1-based positions
`p` and `p + 1`: the result is `take p ++ I ++ drop p`, its length is
`len(ref) + len(I)`, and the bases before and after the insertion point
are unchanged. -/
theorem construct_altseq_insertion (refseq : List Char) (chr I : String)
    (p : Int) (hp : 0 ≤ p) (hple : p ≤ (refseq.length : Int))
    (hI : I.data ≠ []) :
    construct_altseq refseq [Variant.mk chr p "-" I] =
      refseq.take p.toNat ++ I.data ++ refseq.drop p.toNat ∧
    (construct_altseq refseq [Variant.mk chr p "-" I]).length =
      refseq.length + I.data.length ∧
    (∀ (i : Nat) (d : Char), (i : Int) < p →
      (construct_altseq refseq [Variant.mk chr p "-" I]).getD i d =
        refseq.getD i d) ∧
    (∀ (k : Nat) (d : Char),
      (construct_altseq refseq [Variant.mk chr p "-" I]).getD
          (p.toNat + I.data.length + k) d =
        refseq.getD (p.toNat + k) d) := by
  have hres : construct_altseq refseq [Variant.mk chr p "-" I] =
      refseq.take p.toNat ++ I.data ++ refseq.drop p.toNat := by
    unfold construct_altseq
    rw [List.foldl_cons, List.foldl_nil]
    simp only [construct_altseq_step]
    rw [if_pos (show ("-" : String).data.head? = some '-' from rfl)]
    rw [if_neg (by
      simp only [String.data]
      intro hc
      exact hI (List.length_eq_zero.1 (by
        have : (I.data.length : Int) = 0 := by
          simpa using hc
        omega)))]
    have h1 : p - 1 + (0 : Int) + 1 = p := by omega
    rw [h1]
    have h2 : (p + (("" : String).data.length : Int)).toNat = p.toNat := by
      simp
    rw [h2]
  refine ⟨hres, ?_, ?_, ?_⟩
  · rw [hres]
    simp only [List.length_append, List.length_take, List.length_drop]
    omega
  · intro i d hi
    rw [hres, List.getD_eq_getElem?_getD, List.getD_eq_getElem?_getD]
    have hip : i < p.toNat := by omega
    rw [List.getElem?_append, if_pos (by
      simp only [List.length_append, List.length_take]
      omega)]
    rw [List.getElem?_append, if_pos (by simp only [List.length_take]; omega)]
    rw [List.getElem?_take, if_pos hip]
  · intro k d
    rw [hres, List.getD_eq_getElem?_getD, List.getD_eq_getElem?_getD]
    have hlen1 : (refseq.take p.toNat ++ I.data).length =
        p.toNat + I.data.length := by
      simp only [List.length_append, List.length_take]
      omega
    rw [List.getElem?_append, if_neg (by rw [hlen1]; omega), hlen1]
    have h3 : p.toNat + I.data.length + k - (p.toNat + I.data.length) = k := by
      omega
    rw [h3, List.getElem?_drop]

/-! ### `--mvh` behaviour -/

/-- With `mvh` set the priors always use the undivided (1/1) form, for any
`ncombos`. -/
theorem alt_het_priors_mvh (n : Nat) (hetbias : ℝ) (nc nc2 : Nat) :
    alt_het_priors n true hetbias nc =
      (Real.log ((0.5 : ℝ) * (1 - hetbias)), Real.log ((0.5 : ℝ) * hetbias))
    ∧ alt_het_priors n true hetbias nc = alt_het_priors n true hetbias nc2 := by
  unfold alt_het_priors
  rw [if_pos (Or.inr rfl), if_pos (Or.inr rfl)]
  exact ⟨rfl, rfl⟩

/-- The combination enumeration of `evaluate_variants` (eagle.c line 666)
is built by `powerset` alone and is not influenced by `mvh`: for a
three-variant set it contains a two-variant (intermediate-size)
combination. -/
theorem var_combos_has_intermediate (vars : List Variant)
    (h3 : vars.length = 3) :
    ∃ c ∈ var_combos vars 1024, c.length = 2 := by
  refine ⟨[vars.getD 0 variant0, vars.getD 1 variant0], ?_, rfl⟩
  unfold var_combos
  rw [h3]
  have hmem : [0, 1] ∈ powerset 3 1024 := by decide
  exact List.mem_map.2 ⟨[0, 1], hmem, rfl⟩

/-- Every line of a multi-variant set carries the full-set descriptor. -/
theorem evaluate_variants_full_set_desc (pao mvh : Bool) (maxh : Nat)
    (hetbias : ℝ) (fetch : String → List Char) (reads : List Read)
    (vars : List Variant) (lines : List OutLine)
    (h : evaluate_variants pao mvh maxh hetbias fetch reads vars = some lines)
    (hn : 1 < vars.length) :
    ∀ o ∈ lines, o.set_desc = vars := by
  by_cases hne : reads.isEmpty
  · simp [evaluate_variants, hne] at h
  · simp only [evaluate_variants, hne, Bool.false_eq_true, if_false,
      Option.some.injEq] at h
    subst h
    intro o ho
    simp only [List.mem_map] at ho
    obtain ⟨v, _, rfl⟩ := ho
    simp only [if_pos hn]

/-! ### A concrete two-variant evaluation

One read of length 1 (base `T`, Phred 10 so `qual = −1`), aligned at
position 0 of the two-base reference `AC`, against the hypothesis set
`{(c,1,A,T), (c,2,C,G)}`.  All likelihoods are logarithms of explicit
rationals, which lets the emitted `prob` be compared with 0 exactly. -/

def cv1 : Variant := Variant.mk "c" 1 "A" "T"

def cv2 : Variant := Variant.mk "c" 2 "C" "G"

def crRead : Read :=
  Read.mk "r" "c" 0 0 1 ['T'] [(-1 : ℝ)] [] 1 none

def cfetch : String → List Char := fun _ => ['A', 'C']

/-- `calc_prob_distrib` for a length-1 read at position 0 of a length-2
sequence: the off-sequence shift −1 contributes the sentinel value 0 and
the only in-range shift contributes the single matrix entry of the first
base. -/
theorem cpd_len1_pos0 (M : Nat → Nat → ℝ) (s : List Char)
    (h2 : s.length = 2) (hneg : M 0 (seqnt_map (s.getD 0 'A')) < 0) :
    calc_prob_distrib M 1 s 0 = M 0 (seqnt_map (s.getD 0 'A')) := by
  have hcp : ∀ baseline : ℝ, calc_prob M 1 s 0 baseline =
      0 + M 0 (seqnt_map (s.getD 0 'A')) := by
    intro baseline
    simp [calc_prob, calc_prob_go, h2]
  have hcpneg : ∀ baseline : ℝ, calc_prob M 1 s (-1) baseline = 0 := by
    intro baseline
    simp [calc_prob, calc_prob_go]
  rw [calc_prob_distrib]
  rw [hcp (-1000)]
  simp [calc_prob_distrib_go, h2, hcpneg, hcp, hneg]

theorem crRead_is_match : read_is_match crRead 0 = Real.log (9 / 10) := by
  unfold read_is_match read_q crRead M_1_LOG10E
  simp only [List.getD_cons_zero]
  rw [if_neg (by norm_num : ¬ ((-1 : ℝ) = 0))]
  rw [show (-1 : ℝ) * Real.log 10 = -Real.log 10 from by ring]
  rw [Real.exp_neg, Real.exp_log (by norm_num : (0 : ℝ) < 10)]
  norm_num

theorem crRead_no_match : read_no_match crRead 0 = Real.log (1 / 30) := by
  unfold read_no_match read_q crRead M_1_LOG10E LG3
  simp only [List.getD_cons_zero]
  rw [if_neg (by norm_num : ¬ ((-1 : ℝ) = 0))]
  rw [show (-1 : ℝ) * Real.log 10 - Real.log 3 =
    -(Real.log 10 + Real.log 3) from by ring]
  rw [← Real.log_mul (by norm_num) (by norm_num)]
  rw [← Real.log_inv]
  norm_num

theorem crRead_matrix (i : Nat) :
    read_prob_matrix crRead 0 i =
      if i = 1 then Real.log (9 / 10) else Real.log (1 / 30) := by
  unfold read_prob_matrix set_prob_matrix
  have hq : (crRead.qseq.getD 0 'A') = 'T' := rfl
  rw [hq]
  have hs : seqnt_map 'T' = 1 := rfl
  rw [hs, crRead_is_match, crRead_no_match]

theorem log_9_10_neg : Real.log (9 / 10) < 0 :=
  Real.log_neg (by norm_num) (by norm_num)

theorem log_1_30_neg : Real.log (1 / 30) < 0 :=
  Real.log_neg (by norm_num) (by norm_num)

/-- Reference likelihood of the read: first base `A` mismatches `T`. -/
theorem crRead_prgu0 :
    calc_prob_distrib (read_prob_matrix crRead) 1 ['A', 'C'] 0 =
      Real.log (1 / 30) := by
  have h := cpd_len1_pos0 (read_prob_matrix crRead) ['A', 'C'] rfl
  rw [show seqnt_map ((['A', 'C'] : List Char).getD 0 'A') = 0 from rfl] at h
  rw [crRead_matrix 0] at h
  simpa using h (by simpa using log_1_30_neg)

/-- Alternative likelihood of the read against `TC`: first base matches. -/
theorem crRead_prgv0 :
    calc_prob_distrib (read_prob_matrix crRead) 1 ['T', 'C'] 0 =
      Real.log (9 / 10) := by
  have h := cpd_len1_pos0 (read_prob_matrix crRead) ['T', 'C'] rfl
  rw [show seqnt_map ((['T', 'C'] : List Char).getD 0 'A') = 1 from rfl] at h
  rw [crRead_matrix 1] at h
  simpa using h (by simpa using log_9_10_neg)

theorem exp_lgomega_sub : Real.exp (LGOMEGA - LG1_OMEGA) = 1 / 9999 := by
  unfold LGOMEGA LG1_OMEGA
  rw [Real.exp_sub, Real.exp_log (by norm_num), Real.exp_log (by norm_num)]
  norm_num

theorem crRead_pout_exp : Real.exp (read_pout false crRead) = 14 / 15 := by
  have h1 : read_pout false crRead = read_elsewhere crRead := rfl
  rw [h1]
  unfold read_elsewhere
  simp only [show crRead.length = 1 from rfl,
    show List.range 1 = [0] from rfl, List.map_cons,
    List.map_nil, List.sum_cons, List.sum_nil, log_sum_exp_singleton]
  rw [crRead_is_match, crRead_no_match]
  rw [show (((1 : Nat) : Int) - crRead.inferred_length : Int) = 0 from rfl]
  rw [show ((0 : Int) : ℝ) = (0 : ℝ) from by norm_num, mul_zero, sub_zero,
    add_zero]
  rw [exp_log_add_exp, Real.exp_add, Real.exp_sub,
    Real.exp_log (by norm_num : (0 : ℝ) < 9 / 10),
    Real.exp_log (by norm_num : (0 : ℝ) < 1 / 30)]
  norm_num

theorem crRead_prgu_mixed_exp :
    Real.exp (read_prgu_mixed false cfetch ['A', 'C'] crRead) =
      10027 / 299970 := by
  unfold read_prgu_mixed
  rw [exp_log_add_exp, Real.exp_add, exp_lgomega_sub, crRead_pout_exp]
  have h2 : read_prgu false cfetch ['A', 'C'] crRead =
      calc_prob_distrib (read_prob_matrix crRead) 1 ['A', 'C'] crRead.pos :=
    rfl
  rw [h2, show crRead.pos = (0 : Int) from rfl, crRead_prgu0,
    Real.exp_log (by norm_num : (0 : ℝ) < 1 / 30)]
  norm_num

theorem crRead_prgv_exp :
    Real.exp (read_prgv false cfetch ['T', 'C'] 1 crRead) =
      270001 / 299970 := by
  have h1 : read_prgv false cfetch ['T', 'C'] 1 crRead =
      log_add_exp (LGOMEGA - LG1_OMEGA + read_pout false crRead)
        (calc_prob_distrib (read_prob_matrix crRead) 1 ['T', 'C']
          crRead.pos) := rfl
  rw [h1, show crRead.pos = (0 : Int) from rfl, crRead_prgv0]
  rw [exp_log_add_exp, Real.exp_add, exp_lgomega_sub, crRead_pout_exp,
    Real.exp_log (by norm_num : (0 : ℝ) < 9 / 10)]
  norm_num

theorem cpriors_exp :
    Real.exp (alt_het_priors 2 false (0.5 : ℝ) 3).1 = 1 / 12 ∧
    Real.exp (alt_het_priors 2 false (0.5 : ℝ) 3).2 = 1 / 12 := by
  unfold alt_het_priors
  rw [if_neg (by simp)]
  constructor
  · rw [show ((0.5 : ℝ) * (1 - 0.5) / (3 : Nat)) = 1 / 12 from by norm_num,
      Real.exp_log (by norm_num : (0 : ℝ) < 1 / 12)]
  · rw [show ((0.5 : ℝ) * 0.5 / (3 : Nat)) = 1 / 12 from by norm_num,
      Real.exp_log (by norm_num : (0 : ℝ) < 1 / 12)]

/-- On a single kept read, the `alt` and `het` accumulators of a
combination are the single read's contributions. -/
theorem eval_combo_single_read (fetch : String → List Char)
    (refseq : List Char) (p1 p2 : ℝ) (c : List Variant) (r : Read)
    (hkept : read_kept false r = true) :
    (eval_combo false fetch refseq [r] p1 p2 c).alt =
      0 + (read_prgv false fetch (construct_altseq refseq c)
        (c.headD variant0).pos r + p1) ∧
    (eval_combo false fetch refseq [r] p1 p2 c).het =
      0 + (read_phet
        (read_prgv false fetch (construct_altseq refseq c)
          (c.headD variant0).pos r)
        (read_prgu_mixed false fetch refseq r) + p2) := by
  simp only [eval_combo, List.foldl_cons, List.foldl_nil, hkept, if_true]
  constructor
  · split_ifs <;> rfl
  · split_ifs <;> rfl

theorem eval_ref_single_read (fetch : String → List Char)
    (refseq : List Char) (r : Read) (hkept : read_kept false r = true) :
    eval_ref false fetch refseq [r] =
      0 + (read_prgu_mixed false fetch refseq r + REFPRIOR) := by
  simp only [eval_ref, List.foldl_cons, List.foldl_nil, hkept, if_true]

set_option maxHeartbeats 1000000 in
theorem read_phet_exp_lt_one {v u : ℝ} (hv : Real.exp v < 1)
    (hu : Real.exp u < 1) : Real.exp (read_phet v u) < 1 := by
  have hv0 := Real.exp_pos v
  have hu0 := Real.exp_pos u
  have e50 : Real.exp LG50 = 1 / 2 := by
    unfold LG50; rw [Real.exp_log (by norm_num : (0 : ℝ) < 1 / 2)]
  have e10 : Real.exp LG10 = 1 / 10 := by
    unfold LG10; rw [Real.exp_log (by norm_num : (0 : ℝ) < 1 / 10)]
  have e90 : Real.exp LG90 = 9 / 10 := by
    unfold LG90; rw [Real.exp_log (by norm_num : (0 : ℝ) < 9 / 10)]
  have b1 : Real.exp (log_add_exp (LG50 + v) (LG50 + u)) < 1 := by
    rw [exp_log_add_exp, Real.exp_add, Real.exp_add, e50]
    linarith
  have b2 : Real.exp (log_add_exp (LG10 + v) (LG90 + u)) < 1 := by
    rw [exp_log_add_exp, Real.exp_add, Real.exp_add, e10, e90]
    linarith
  have b3 : Real.exp (log_add_exp (LG90 + v) (LG10 + u)) < 1 := by
    rw [exp_log_add_exp, Real.exp_add, Real.exp_add, e90, e10]
    linarith
  simp only [read_phet]
  split_ifs <;> assumption

theorem M_1_LN10_pos : 0 < M_1_LN10 := by
  unfold M_1_LN10
  exact one_div_pos.mpr (Real.log_pos (by norm_num))

set_option maxHeartbeats 2000000 in
/-- On the concrete two-variant input the emitted line for `cv1` has
`prob > 0`: `has_alt` log-sums the combinations containing `cv1`, while
`total` only retains the final combination, and the read strongly supports
`cv1`. -/
theorem evaluate_c2_prob_positive :
    ∃ lines, evaluate_variants false false 1024 (0.5 : ℝ) cfetch [crRead]
      [cv1, cv2] = some lines ∧ ∃ o ∈ lines, 0 < o.prob := by
  have hkept : read_kept false crRead = true := rfl
  have hcombos : var_combos [cv1, cv2] 1024 = [[cv1], [cv2], [cv1, cv2]] := by
    decide
  have hfetch : cfetch ((([cv1, cv2] : List Variant).headD variant0).chr) =
      ['A', 'C'] := rfl
  have halts0 : construct_altseq ['A', 'C'] [cv1] = ['T', 'C'] := by decide
  have hv0pos : (([cv1] : List Variant).headD variant0).pos = 1 := rfl
  have hf0 : find_variant [cv1] cv1 = 0 := by decide
  have hf1 : find_variant [cv2] cv1 = -1 := by decide
  have hf2 : find_variant [cv1, cv2] cv1 = 0 := by decide
  have hrexp : Real.exp REFPRIOR = 1 / 2 := by
    unfold REFPRIOR
    rw [Real.exp_log (by norm_num : (0 : ℝ) < 1 / 2)]
  -- abbreviations for the two priors
  set P1 := (alt_het_priors 2 false (0.5 : ℝ) 3).1 with hP1
  set P2 := (alt_het_priors 2 false (0.5 : ℝ) 3).2 with hP2
  set A0 := eval_combo false cfetch ['A', 'C'] [crRead] P1 P2 [cv1] with hA0
  set A2 := eval_combo false cfetch ['A', 'C'] [crRead] P1 P2 [cv1, cv2]
    with hA2
  set R0 := eval_ref false cfetch ['A', 'C'] [crRead] with hR0
  -- exact values of the first combination and the reference accumulator
  have hA0alt : Real.exp A0.alt = 270001 / 299970 * (1 / 12) := by
    rw [hA0, (eval_combo_single_read cfetch ['A', 'C'] P1 P2 [cv1] crRead
      hkept).1, halts0, hv0pos, zero_add, Real.exp_add, crRead_prgv_exp,
      hP1, cpriors_exp.1]
  have hA0het : Real.exp A0.het < 1 / 12 := by
    rw [hA0, (eval_combo_single_read cfetch ['A', 'C'] P1 P2 [cv1] crRead
      hkept).2, halts0, hv0pos, zero_add, Real.exp_add, hP2, cpriors_exp.2]
    have hb := read_phet_exp_lt_one
      (by rw [crRead_prgv_exp]; norm_num :
        Real.exp (read_prgv false cfetch ['T', 'C'] 1 crRead) < 1)
      (by rw [crRead_prgu_mixed_exp]; norm_num :
        Real.exp (read_prgu_mixed false cfetch ['A', 'C'] crRead) < 1)
    nlinarith [Real.exp_pos (read_phet
      (read_prgv false cfetch ['T', 'C'] 1 crRead)
      (read_prgu_mixed false cfetch ['A', 'C'] crRead))]
  have hRef : Real.exp R0 = 10027 / 299970 * (1 / 2) := by
    rw [hR0, eval_ref_single_read cfetch ['A', 'C'] crRead hkept, zero_add,
      Real.exp_add, crRead_prgu_mixed_exp, hrexp]
  have hc0 : ¬ (log_add_exp A0.alt A0.het = 0) := by
    intro h
    have he := congrArg Real.exp h
    rw [exp_log_add_exp, Real.exp_zero] at he
    nlinarith [Real.exp_pos A0.het]
  -- reduce the evaluation to the line for cv1
  obtain ⟨lines, hlines⟩ :
      ∃ lines, evaluate_variants false false 1024 (0.5 : ℝ) cfetch [crRead]
        [cv1, cv2] = some lines := by
    simp only [evaluate_variants,
      show ([crRead] : List Read).isEmpty = false from rfl,
      Bool.false_eq_true, if_false]
    exact ⟨_, rfl⟩
  refine ⟨lines, hlines, ?_⟩
  simp only [evaluate_variants,
    show ([crRead] : List Read).isEmpty = false from rfl,
    Bool.false_eq_true, if_false, hcombos, hfetch,
    show ([cv1, cv2] : List Variant).length = 2 from rfl,
    show ([[cv1], [cv2], [cv1, cv2]] : List (List Variant)).length = 3
      from rfl,
    List.map_cons, List.map_nil, List.zip_cons_cons, List.zip_nil_right,
    List.foldl_cons, List.foldl_nil, margin_fold, ← hP1, ← hP2, ← hA0,
    ← hA2, ← hR0, Option.some_inj] at hlines
  subst hlines
  refine ⟨_, List.mem_cons_self _ _, ?_⟩
  simp only [hf0, hf1, hf2, ne_eq, neg_neg, OfNat.ofNat_ne_zero]
  norm_num
  rw [if_neg hc0]
  have hlt : log_add_exp R0 (log_add_exp A2.alt A2.het) <
      log_add_exp (log_add_exp A0.alt A0.het)
        (log_add_exp A2.alt A2.het) := by
    rw [← Real.exp_lt_exp]
    simp only [exp_log_add_exp]
    rw [hA0alt, hRef]
    nlinarith [Real.exp_pos A0.het]
  exact mul_pos (sub_pos.mpr hlt) M_1_LN10_pos

/-! ## Claim theorems -/

/-- A third nearby variant, for three-variant hypothesis sets. -/
def cv3 : Variant := Variant.mk "c" 3 "A" "G"

/-- A read flagged SECONDARY (otherwise identical in content to a primary
read of base `T`). -/
def secRead : Read :=
  Read.mk "s" "c" 0 0 1 ['T'] [(-1 : ℝ)] ["SECONDARY"] 1 none

/-- Refutes C1 as stated: a variant whose hypothesis set's region yields no
reads receives *no* output line (the `NULL` read fetch makes
`evaluate_variants` emit nothing), so "exactly one data line per input
variant ... for every set of fetched reads" fails. -/
theorem claim_C1_counterexample :
    process_output false false 1024 ((1 : ℝ) / 2) cfetch (fun _ => []) 100 2
      [cv1] = [] := rfl

/-- C1 (amended): when the input variant list is sorted with strictly
increasing positions per chromosome and every hypothesis set's region
yields at least one read, the output contains exactly one data line per
input variant, in grouped order. -/
theorem claim_C1 (pao mvh : Bool) (maxh : Nat) (hetbias : ℝ)
    (fetch : String → List Char) (fetch_reads : List Variant → List Read)
    (d : Int) (k : Nat) (l : List Variant)
    (hsort : l.Chain' (fun a b => a.chr = b.chr → a.pos < b.pos))
    (hreads : ∀ S, fetch_reads S ≠ []) :
    (process_output pao mvh maxh hetbias fetch fetch_reads d k l).map
      line_variant = l :=
  process_output_one_line_each pao mvh maxh hetbias fetch fetch_reads d k l
    hsort hreads

/-- Concrete instance of `claim_C1`. -/
theorem claim_C1_witness :
    (process_output false false 1024 ((1 : ℝ) / 2) cfetch
      (fun _ => [crRead]) 100 2 [cv1, cv2]).map line_variant = [cv1, cv2] :=
  claim_C1 false false 1024 ((1 : ℝ) / 2) cfetch (fun _ => [crRead]) 100 2
    [cv1, cv2] (List.chain'_pair.2 (fun _ => by decide))
    (fun _ => List.cons_ne_nil _ _)

/-- C2 (amended): on every emitted line `has_alt_count ≤ read_count`
(hence `0 ≤ has_alt_count ≤ read_count`), and for a *singleton* hypothesis
set — where the final combination retained in `total` is the same single
combination that feeds `has_alt` — also `prob ≤ 0`.  For larger sets
`prob ≤ 0` fails (see the counterexample). -/
theorem claim_C2 (pao mvh : Bool) (maxh : Nat) (hetbias : ℝ)
    (fetch : String → List Char) (reads : List Read) (vars : List Variant)
    (lines : List OutLine)
    (h : evaluate_variants pao mvh maxh hetbias fetch reads vars =
      some lines) :
    (∀ o ∈ lines, o.has_alt_count ≤ o.read_count) ∧
    (∀ v, vars = [v] → ∀ o ∈ lines, o.prob ≤ 0) := by
  refine ⟨evaluate_variants_count_bounds pao mvh maxh hetbias fetch reads
    vars lines h, ?_⟩
  intro v hv
  subst hv
  exact evaluate_singleton_prob_nonpos pao mvh maxh hetbias fetch reads v
    lines h

/-- Concrete instance of `claim_C2`. -/
theorem claim_C2_witness :
    ∃ lines, evaluate_variants false false 1024 ((1 : ℝ) / 2) cfetch
        [crRead] [cv1] = some lines ∧
      (∀ o ∈ lines, o.has_alt_count ≤ o.read_count) ∧
      (∀ o ∈ lines, o.prob ≤ 0) := by
  obtain ⟨lines, hl⟩ : ∃ lines, evaluate_variants false false 1024
      ((1 : ℝ) / 2) cfetch [crRead] [cv1] = some lines := by
    simp only [evaluate_variants,
      show ([crRead] : List Read).isEmpty = false from rfl,
      Bool.false_eq_true, if_false]
    exact ⟨_, rfl⟩
  exact ⟨lines, hl,
    (claim_C2 false false 1024 ((1 : ℝ) / 2) cfetch [crRead] [cv1] lines
      hl).1,
    (claim_C2 false false 1024 ((1 : ℝ) / 2) cfetch [crRead] [cv1] lines
      hl).2 cv1 rfl⟩

/-- Refutes the count formula of C3: for `n = 3`, `maxh = 0` the cutoff is
only checked after a whole size completes, so all 7 combinations are
emitted although `min (2^3 − 1) (maxh + n + 1) = 4`. -/
theorem claim_C3_counterexample :
    ncombos_of 3 0 = 7 ∧ min (2 ^ 3 - 1) (0 + 3 + 1) = 4 := by decide

/-- C3 (amended): for `n ≥ 2` the enumeration emits the `n` singletons in
order, then the full set, then a contiguous run of sizes `2, 3, …` staying
below `n`; within each size the combinations are in strictly ascending
lexicographic order and have the advertised length; and the final count
satisfies `ncombos ≤ 2^n − 1` and `min (2^n − 1) (maxh + n + 1) ≤ ncombos`
(it can strictly exceed `maxh + n + 1`, so the claimed equality fails). -/
theorem claim_C3 (n maxh : Nat) (hn : 2 ≤ n) :
    (∃ m, 2 + m ≤ n ∧
      powerset n maxh =
        (List.range n).map (fun i => [i]) ++
          ([List.range n] ++
            (List.range' 2 m).bind (fun j => combinations j n))) ∧
    (∀ k, (combinations k n).Pairwise (List.Lex (· < ·))) ∧
    (∀ k c, c ∈ combinations k n → c.length = k) ∧
    ncombos_of n maxh ≤ 2 ^ n - 1 ∧
    min (2 ^ n - 1) (maxh + n + 1) ≤ ncombos_of n maxh := by
  obtain ⟨m, hm, heq⟩ := powerset_go_struct n maxh n 2 (n + 1) (by omega)
    (by omega)
  refine ⟨⟨m, hm, ?_⟩, fun k => combosFrom_pairwise_lex n k 0,
    fun k c hc => combosFrom_mem_length n k 0 c hc,
    (ncombos_of_bounds n maxh hn).1, (ncombos_of_bounds n maxh hn).2⟩
  rw [powerset, if_pos (by omega : 1 < n), heq, combinations_one,
    combinations_full]

/-- Concrete instance of `claim_C3`. -/
theorem claim_C3_witness :
    2 ≤ 3 ∧
    ((∃ m, 2 + m ≤ 3 ∧
      powerset 3 0 =
        (List.range 3).map (fun i => [i]) ++
          ([List.range 3] ++
            (List.range' 2 m).bind (fun j => combinations j 3))) ∧
    (∀ k, (combinations k 3).Pairwise (List.Lex (· < ·))) ∧
    (∀ k c, c ∈ combinations k 3 → c.length = k) ∧
    ncombos_of 3 0 ≤ 2 ^ 3 - 1 ∧
    min (2 ^ 3 - 1) (0 + 3 + 1) ≤ ncombos_of 3 0) :=
  ⟨by decide, claim_C3 3 0 (by decide)⟩

/-- Refutes the "no intermediate-size combinations are enumerated" part of
C4: the combination enumeration (`powerset`, resolved by `var_combos`)
does not consult `mvh` at all, so for a three-variant set a two-variant
combination is enumerated — and, `total` being overwritten per
combination, the *last* (intermediate-size) combination is the one `total`
retains. -/
theorem claim_C4_counterexample :
    ∃ c ∈ var_combos [cv1, cv2, cv3] 1024, c.length = 2 := by decide

/-- C4 (amended): with `--mvh` the priors always use the undivided (1/1)
form, independent of `ncombos`, and every line of a multi-variant set
carries the full-set descriptor; the combination enumeration itself is
however unchanged by `mvh`. -/
theorem claim_C4 (pao : Bool) (maxh : Nat) (hetbias : ℝ) (nc nc2 : Nat)
    (fetch : String → List Char) (reads : List Read) (vars : List Variant)
    (lines : List OutLine)
    (h : evaluate_variants pao true maxh hetbias fetch reads vars =
      some lines)
    (hn : 1 < vars.length) :
    alt_het_priors vars.length true hetbias nc =
      (Real.log ((0.5 : ℝ) * (1 - hetbias)),
        Real.log ((0.5 : ℝ) * hetbias)) ∧
    alt_het_priors vars.length true hetbias nc =
      alt_het_priors vars.length true hetbias nc2 ∧
    ∀ o ∈ lines, o.set_desc = vars :=
  ⟨(alt_het_priors_mvh vars.length hetbias nc nc2).1,
    (alt_het_priors_mvh vars.length hetbias nc nc2).2,
    evaluate_variants_full_set_desc pao true maxh hetbias fetch reads vars
      lines h hn⟩

/-- Concrete instance of `claim_C4`. -/
theorem claim_C4_witness :
    ∃ lines, evaluate_variants false true 1024 ((1 : ℝ) / 2) cfetch
        [crRead] [cv1, cv2] = some lines ∧
      (alt_het_priors 2 true ((1 : ℝ) / 2) 3 =
        (Real.log ((0.5 : ℝ) * (1 - (1 : ℝ) / 2)),
          Real.log ((0.5 : ℝ) * ((1 : ℝ) / 2))) ∧
      alt_het_priors 2 true ((1 : ℝ) / 2) 3 =
        alt_het_priors 2 true ((1 : ℝ) / 2) 7 ∧
      ∀ o ∈ lines, o.set_desc = [cv1, cv2]) := by
  obtain ⟨lines, hl⟩ : ∃ lines, evaluate_variants false true 1024
      ((1 : ℝ) / 2) cfetch [crRead] [cv1, cv2] = some lines := by
    simp only [evaluate_variants,
      show ([crRead] : List Read).isEmpty = false from rfl,
      Bool.false_eq_true, if_false]
    exact ⟨_, rfl⟩
  exact ⟨lines, hl, claim_C4 false 1024 ((1 : ℝ) / 2) 3 7 cfetch [crRead]
    [cv1, cv2] lines hl (by decide)⟩

/-- C5: contradicted by the code — the `-b` alias `--hetbias` value goes
through the *integer* `parse_num` (strtol with a full-parse check), so the
documented FLOAT `0.5` is rejected fatally (`none` models the
`exit_err`), while an out-of-range integer such as `2` parses and is then
*silently* replaced by the default 0.5 — no usage message, no nonzero
exit. -/
theorem claim_C5 :
    parse_num "0.5" = none ∧ parse_num "2" = some 2 ∧
    main_hetbias "0.5" = none ∧ main_hetbias "2" = some (0.5 : ℝ) := by
  have h05 : parse_num "0.5" = none := by decide
  have h2 : parse_num "2" = some 2 := by decide
  refine ⟨h05, h2, ?_, ?_⟩
  · simp [main_hetbias, h05]
  · have hv : main_hetbias "2" =
        some (if ((2 : Int) : ℝ) < 0 ∨ 1 < ((2 : Int) : ℝ) then (0.5 : ℝ)
          else ((2 : Int) : ℝ)) := by
      simp [main_hetbias, h2]
    rw [hv, if_pos (Or.inr (by norm_num))]

/-- C6: `construct_altseq` leaves the reference unchanged on the empty
combination; a single SNP changes nothing but 0-based index `p − 1` and
preserves the length; a pure insertion `(p, "-", I)` splices `I` between
1-based positions `p` and `p + 1`, gives length `len(ref) + len(I)`, and
leaves the bases before and after the insertion point unchanged. -/
theorem claim_C6 (refseq : List Char) (chr R A I : String) (p : Int) :
    construct_altseq refseq [] = refseq ∧
    (A.data.length = 1 → A.data.length = R.data.length →
      R.data.head? ≠ some '-' → A.data.head? ≠ some '-' → 1 ≤ p →
      (construct_altseq refseq [Variant.mk chr p R A]).length =
        refseq.length ∧
      ∀ (i : Nat) (d : Char), (i : Int) ≠ p - 1 →
        (construct_altseq refseq [Variant.mk chr p R A]).getD i d =
          refseq.getD i d) ∧
    (0 ≤ p → p ≤ (refseq.length : Int) → I.data ≠ [] →
      construct_altseq refseq [Variant.mk chr p "-" I] =
        refseq.take p.toNat ++ I.data ++ refseq.drop p.toNat ∧
      (construct_altseq refseq [Variant.mk chr p "-" I]).length =
        refseq.length + I.data.length ∧
      (∀ (i : Nat) (d : Char), (i : Int) < p →
        (construct_altseq refseq [Variant.mk chr p "-" I]).getD i d =
          refseq.getD i d) ∧
      (∀ (k : Nat) (d : Char),
        (construct_altseq refseq [Variant.mk chr p "-" I]).getD
            (p.toNat + I.data.length + k) d =
          refseq.getD (p.toNat + k) d)) :=
  ⟨construct_altseq_nil refseq,
    fun h1 h2 h3 h4 h5 =>
      construct_altseq_snp refseq chr R A p h1 h2 h3 h4 h5,
    fun h1 h2 h3 => construct_altseq_insertion refseq chr I p h1 h2 h3⟩

/-- Concrete instance of `claim_C6`. -/
theorem claim_C6_witness :
    construct_altseq ['A', 'C'] [] = ['A', 'C'] ∧
    (construct_altseq ['A', 'C'] [Variant.mk "c" 1 "A" "T"]).length =
      (['A', 'C'] : List Char).length ∧
    (construct_altseq ['A', 'C'] [Variant.mk "c" 1 "A" "T"]).getD 1 'N' =
      (['A', 'C'] : List Char).getD 1 'N' ∧
    construct_altseq ['A', 'C'] [Variant.mk "c" 1 "-" "GG"] =
      (['A', 'C'] : List Char).take (1 : Int).toNat ++ ("GG" : String).data
        ++ (['A', 'C'] : List Char).drop (1 : Int).toNat ∧
    (construct_altseq ['A', 'C'] [Variant.mk "c" 1 "-" "GG"]).length =
      (['A', 'C'] : List Char).length + ("GG" : String).data.length ∧
    (construct_altseq ['A', 'C'] [Variant.mk "c" 1 "-" "GG"]).getD 0 'N' =
      (['A', 'C'] : List Char).getD 0 'N' ∧
    (construct_altseq ['A', 'C'] [Variant.mk "c" 1 "-" "GG"]).getD
        ((1 : Int).toNat + ("GG" : String).data.length + 1) 'N' =
      (['A', 'C'] : List Char).getD ((1 : Int).toNat + 1) 'N' := by
  have h := claim_C6 ['A', 'C'] "c" "A" "T" "GG" 1
  have hsnp := h.2.1 (by decide) (by decide) (by decide) (by decide)
    (by decide)
  have hins := h.2.2 (by decide) (by decide) (by decide)
  exact ⟨h.1, hsnp.1, hsnp.2 1 'N' (by decide), hins.1, hins.2.1,
    hins.2.2.1 0 'N' (by decide), hins.2.2.2 1 'N'⟩

/-- C7: after grouping (on a position-sorted input) and any number of
same-position-splitting passes ending in a flagless pass, every set
satisfies the consecutive-pair invariant (same `chr`, gap ≤ `distlim`),
has pairwise distinct positions, and with `distlim = 0` every set is a
singleton. -/
theorem claim_C7 (d : Int) (k : Nat) (l : List Variant)
    (hsort : l.Chain' (fun a b => a.chr = b.chr → a.pos ≤ b.pos))
    (hflag : (split_round (split_rounds k (group_sets d l))).2 = false) :
    (∀ S ∈ split_rounds k (group_sets d l), S.Chain' (chainR d)) ∧
    (∀ S ∈ split_rounds k (group_sets d l),
      S.Pairwise (fun a b => a.pos ≠ b.pos)) ∧
    (d = 0 → ∀ S ∈ split_rounds k (group_sets d l), S.length = 1) := by
  have hchain : ∀ S ∈ split_rounds k (group_sets d l),
      S.Chain' (chainR d) :=
    split_rounds_chain k (group_sets d l)
      (fun S hS => group_sets_go_chain d l.length l hsort S hS)
  refine ⟨hchain, fixpoint_no_same_pos hchain hflag, ?_⟩
  rintro rfl S hS
  have h0 : ∀ S ∈ group_sets 0 l, S.length = 1 :=
    fun S hS => group_sets_go_distlim_zero l.length l S hS
  rw [split_rounds_singletons h0 k] at hS
  exact h0 S hS

/-- Concrete instance of `claim_C7`. -/
theorem claim_C7_witness :
    (∀ S ∈ split_rounds 1 (group_sets 100 [cv1, cv2]),
      S.Chain' (chainR 100)) ∧
    (∀ S ∈ split_rounds 1 (group_sets 100 [cv1, cv2]),
      S.Pairwise (fun a b => a.pos ≠ b.pos)) ∧
    ((100 : Int) = 0 →
      ∀ S ∈ split_rounds 1 (group_sets 100 [cv1, cv2]), S.length = 1) :=
  claim_C7 100 1 [cv1, cv2] (List.chain'_pair.2 (fun _ => by decide))
    (by decide)

/-- Refutes the noninterference of C8 at the empty-region check: a
secondary-only read list has the same primary content as the empty list
(both scrub to `[]`), yet the former passes the `bam_fetch` emptiness test
and produces output lines while the latter produces none. -/
theorem claim_C8_counterexample :
    scrub [secRead] = scrub [] ∧
    evaluate_variants true false 1024 ((1 : ℝ) / 2) cfetch [secRead]
        [cv1] ≠
      evaluate_variants true false 1024 ((1 : ℝ) / 2) cfetch [] [cv1] := by
  refine ⟨rfl, ?_⟩
  obtain ⟨lines, hl⟩ : ∃ lines, evaluate_variants true false 1024
      ((1 : ℝ) / 2) cfetch [secRead] [cv1] = some lines := by
    simp only [evaluate_variants,
      show ([secRead] : List Read).isEmpty = false from rfl,
      Bool.false_eq_true, if_false]
    exact ⟨_, rfl⟩
  intro h
  rw [hl, show evaluate_variants true false 1024 ((1 : ℝ) / 2) cfetch []
    [cv1] = none from rfl] at h
  exact Option.noConfusion h

/-- C8 (amended): under `--pao`, away from the emptiness check — i.e. for
two read lists with the same primary (non-secondary/supplementary,
XA-stripped) content that agree on being empty — the evaluation results
are identical: secondary/supplementary reads are skipped and XA
annotations are never consulted. -/
theorem claim_C8 (mvh : Bool) (maxh : Nat) (hetbias : ℝ)
    (fetch : String → List Char) (r1 r2 : List Read) (vars : List Variant)
    (hscrub : scrub r1 = scrub r2) (hempty : r1.isEmpty = r2.isEmpty) :
    evaluate_variants true mvh maxh hetbias fetch r1 vars =
      evaluate_variants true mvh maxh hetbias fetch r2 vars :=
  evaluate_variants_pao_noninterference mvh maxh hetbias fetch r1 r2 vars
    hscrub hempty

/-- Concrete instance of `claim_C8`: adding a SECONDARY read to a
non-empty read list does not change the evaluation. -/
theorem claim_C8_witness :
    evaluate_variants true false 1024 ((1 : ℝ) / 2) cfetch
        [secRead, crRead] [cv1] =
      evaluate_variants true false 1024 ((1 : ℝ) / 2) cfetch [crRead]
        [cv1] :=
  claim_C8 false 1024 ((1 : ℝ) / 2) cfetch [secRead, crRead] [crRead]
    [cv1] rfl rfl

/-- C9: `log_add_exp(−∞, x) = x` in its exact-real rendering (the limit of
`log_add_exp a x` as `a → −∞` is `x`); `log_add_exp` dominates the max and
is commutative; `log_sum_exp` of a singleton is the element, and
`log_sum_exp` is invariant under permutation. -/
theorem claim_C9 (a b x : ℝ) (l l' : List ℝ) (hperm : l.Perm l') :
    Filter.Tendsto (fun t => log_add_exp t x) Filter.atBot (nhds x) ∧
    max a b ≤ log_add_exp a b ∧
    log_add_exp a b = log_add_exp b a ∧
    log_sum_exp [x] = x ∧
    log_sum_exp l = log_sum_exp l' :=
  ⟨log_add_exp_tendsto_atBot x, max_le_log_add_exp a b,
    log_add_exp_comm a b, log_sum_exp_singleton x, log_sum_exp_perm hperm⟩

/-- Concrete instance of `claim_C9`. -/
theorem claim_C9_witness :
    Filter.Tendsto (fun t => log_add_exp t 0) Filter.atBot (nhds 0) ∧
    max (0 : ℝ) 1 ≤ log_add_exp 0 1 ∧
    log_add_exp (0 : ℝ) 1 = log_add_exp 1 0 ∧
    log_sum_exp [(0 : ℝ)] = 0 ∧
    log_sum_exp [(0 : ℝ), 1] = log_sum_exp [(1 : ℝ), 0] :=
  claim_C9 0 1 0 [0, 1] [1, 0] (List.Perm.swap 1 0 [])

/-- C10: a read window entirely past the end of the sequence
(`pos ≥ seq_length + read_length`) makes `calc_prob_distrib` return 0 —
log-probability 0, i.e. probability 1 — because the baseline and every
window shift terminate before accumulating any matrix term. -/
theorem claim_C10 (matrix : Nat → Nat → ℝ) (read_length : Nat)
    (seq : List Char) (pos : Int)
    (h : (seq.length : Int) + read_length ≤ pos) :
    calc_prob_distrib matrix read_length seq pos = 0 :=
  calc_prob_distrib_out_of_range matrix read_length seq pos h

/-- Concrete instance of `claim_C10`. -/
theorem claim_C10_witness :
    calc_prob_distrib (fun _ _ => (0 : ℝ)) 1 ['A'] 5 = 0 :=
  claim_C10 (fun _ _ => (0 : ℝ)) 1 ['A'] 5 (by decide)

end Eagle
